import Mathlib

/-!
Shard master (`shardmaster/server.go`): replicated configuration state machine

A shallow embedding of the apply loop (`runServer`), of the rebalancing routine
(`updateConfig`), of `newConfig`, `success`, `checkDuplicate`, of the handler side
(`appendLog`, `Query`) and of `StartServer`'s initial state.

Conventions of the embedding.

* A Go `int` / `int64` value that is data (group id, sequence number, client id, log
  index, configuration number, the `Shard` field of a command) is an `Int`.  No
  arithmetic of the modelled code can leave the 64-bit range at sizes a process can
  hold (`Num + 1` counts configurations), so no wrap-around is modelled.
* A value that Go obtains from `len` or from `range` over an array or slice (shard
  index, `expected`, `nIndex`, `gIndex`) is a `Nat`.
* A Go map is an association list read by first match (`GoMap`).  `range` over a map
  visits the keys in an order the language leaves unspecified: every function that
  ranges over a map takes the order as a parameter, a function from the list of keys
  to the list of keys in visiting order (`IsEnum`).
* A run-time panic (division by zero, index or slice out of range), and a channel send
  that cannot proceed, are values of `Fault`; code that can fault returns
  `Except Fault _`.
* `NShards`, the array length of `Config.Shards`, is declared outside `server.go`; it
  is a parameter.
-/

namespace Shardmaster

/-! ## Go maps -/

/-- A Go map as an association list; the binding of a key is its first entry. -/
abbrev GoMap (κ : Type) (ν : Type) := List (κ × ν)

/-- The distinct elements of a list, each kept at its first position. -/
def distinct : List Int → List Int
  | [] => []
  | a :: l => a :: (distinct l).filter (fun b => b != a)

/-- The comma-ok read `v, ok := m[k]`. -/
def GoMap.get? {ν : Type} (m : GoMap Int ν) (k : Int) : Option ν :=
  match m with
  | [] => none
  | (k', v) :: rest => if k' = k then some v else GoMap.get? rest k

/-- The test `_, ok := m[k]`. -/
def GoMap.contains {ν : Type} (m : GoMap Int ν) (k : Int) : Bool :=
  (m.get? k).isSome

/-- The assignment `m[k] = v`: rebinds `k` where it is bound, adds it otherwise. -/
def GoMap.set {ν : Type} (m : GoMap Int ν) (k : Int) (v : ν) : GoMap Int ν :=
  if m.contains k then m.map (fun p => if p.1 = k then (k, v) else p) else m ++ [(k, v)]

/-- The built-in `delete(m, k)`. -/
def GoMap.delete {ν : Type} (m : GoMap Int ν) (k : Int) : GoMap Int ν :=
  m.filter (fun p => p.1 != k)

/-- The keys of a map, each once. -/
def GoMap.keys {ν : Type} (m : GoMap Int ν) : List Int :=
  distinct (m.map (fun p => p.1))

/-- An order in which `range` may visit the keys of a map: a rearrangement of them. -/
def IsEnum (e : List Int → List Int) : Prop := ∀ l, (e l).Perm l

/-- The visiting orders of the four `range` statements over maps that one iteration of
`runServer` can execute: over `oldConfig.Groups` in `newConfig`, over `op.Servers` in
the `JOIN` case, over `config.Groups` and over `g2s` in `updateConfig`. -/
structure Sched where
  rangeOld : List Int → List Int
  rangeServers : List Int → List Int
  rangeGroups : List Int → List Int
  rangeG2s : List Int → List Int

/-- Every order of a schedule is a rearrangement of the keys. -/
def Sched.Valid (sch : Sched) : Prop :=
  IsEnum sch.rangeOld ∧ IsEnum sch.rangeServers ∧ IsEnum sch.rangeGroups ∧ IsEnum sch.rangeG2s

/-- The schedule that visits every map in the order of its association list. -/
def Sched.stored : Sched := ⟨id, id, id, id⟩

/-! ## Data model -/

/-- Run-time failures of the modelled code. -/
inductive Fault where
  | divideByZero
  | indexOutOfRange
  | sliceOutOfRange
  | sendBlocked
  deriving DecidableEq, Repr

/-- The type `Config` (declared next to `NShards`): number, shard owners, groups. -/
structure Config where
  Num : Int
  Shards : List Int
  Groups : GoMap Int (List String)
  deriving DecidableEq, Repr

def JOIN : Int := 0
def LEAVE : Int := 1
def MOVE : Int := 2
def QUERY : Int := 3

/-- The type `Op`; `Typ` is its field `Type`. -/
structure Op where
  Typ : Int := 0
  Index : Int := 0
  Cid : Int := 0
  Seq : Int := 0
  Servers : GoMap Int (List String) := []
  GIDs : List Int := []
  Shard : Int := 0
  GID : Int := 0
  Num : Int := 0
  deriving DecidableEq, Repr

/-- The fields of `raft.ApplyMsg` that `runServer` reads.  `Command` is an interface
value: `none` stands for a value that is not an `Op`. -/
structure ApplyMsg where
  Index : Int
  Command : Option Op
  deriving DecidableEq, Repr

/-- The fields `request`, `result`, `configs` of `ShardMaster`.  A channel of `result`
(made with capacity 1) is the list of the values it holds. -/
structure ShardMaster where
  request : GoMap Int Int
  result : GoMap Int (List Int)
  configs : List Config
  deriving DecidableEq, Repr

/-- The state `StartServer` builds: one zero-valued configuration with an empty group
map, empty `result` and `request`. -/
def StartServer (NShards : Nat) : ShardMaster :=
  { request := []
    result := []
    configs := [{ Num := 0, Shards := List.replicate NShards 0, Groups := [] }] }

/-! ## `checkDuplicate`, `success`, `newConfig` -/

/-- The function `checkDuplicate`. -/
def checkDuplicate (sm : ShardMaster) (cid : Int) (seq : Int) : Bool :=
  match sm.request.get? cid with
  | some lastSeq => decide (seq ≤ lastSeq)
  | none => false

/-- The function `success`: sends `op.Index` on the channel registered for `index`, if
there is one.  The channel has capacity 1; a send on a full channel cannot proceed. -/
def success (sm : ShardMaster) (index : Int) (op : Op) : Except Fault ShardMaster :=
  match sm.result.get? index with
  | some ch =>
    if ch.length < 1 then .ok { sm with result := sm.result.set index (ch ++ [op.Index]) }
    else .error Fault.sendBlocked
  | none => .ok sm

/-- The loop `for i, v := range oldConfig.Shards { newConfig.Shards[i] = v }`, from index
`i` on.  Both arrays have the type `[NShards]int`, so every `i` is an index of the
destination. -/
def copyShards : List Int → Nat → List Int → List Int
  | dst, _, [] => dst
  | dst, i, v :: rest => copyShards (dst.set i v) (i + 1) rest

/-- The loop `for k, v := range oldConfig.Groups` of `newConfig`, each server list
copied. -/
def copyGroups (enum : List Int → List Int) (old : GoMap Int (List String)) :
    GoMap Int (List String) :=
  (enum old.keys).foldl
    (fun acc k => match old.get? k with
      | some v => acc.set k v
      | none => acc) []

/-- The function `newConfig`. -/
def newConfig (NShards : Nat) (enum : List Int → List Int) (sm : ShardMaster) :
    Except Fault Config :=
  match sm.configs.getLast? with
  | none => .error Fault.indexOutOfRange
  | some oldConfig =>
    .ok { Num := oldConfig.Num + 1
          Groups := copyGroups enum oldConfig.Groups
          Shards := copyShards (List.replicate NShards 0) 0 oldConfig.Shards }

/-! ## `updateConfig` -/

/-- The array store `a[i] = v`, which panics when `i` is not an index of `a`. -/
def setIndex (a : List Int) (i : Nat) (v : Int) : Except Fault (List Int) :=
  if i < a.length then .ok (a.set i v) else .error Fault.indexOutOfRange

/-- The loop `for sid, gid := range config.Shards` of `updateConfig`: a shard whose owner
is a key of `Groups` is appended to `g2s[gid]`, any other shard to `neededMove`.  The
second argument is the index of the head of the third. -/
def groupShards (groups : GoMap Int (List String)) :
    Nat → List Int → GoMap Int (List Nat) × List Nat → GoMap Int (List Nat) × List Nat
  | _, [], acc => acc
  | sid, gid :: rest, (g2s, neededMove) =>
    if groups.contains gid then
      groupShards groups (sid + 1) rest (g2s.set gid ((g2s.get? gid).getD [] ++ [sid]), neededMove)
    else
      groupShards groups (sid + 1) rest (g2s, neededMove ++ [sid])

/-- The value of `expected`: `len(config.Shards) / len(gids)`, replaced by 1 when 0. -/
def expectedLoad (nShards nGids : Nat) : Nat :=
  if nShards / nGids = 0 then 1 else nShards / nGids

/-- The slice expression `s[lo:]`, which panics when `lo` exceeds `len(s)`. -/
def sliceFrom (s : List Nat) (lo : Nat) : Except Fault (List Nat) :=
  if lo ≤ s.length then .ok (s.drop lo) else .error Fault.sliceOutOfRange

/-- The loop `for _, sids := range g2s`, the groups visited in the order of the third
argument: when `len(sids) > expected`, the slice `sids[expected:]` is taken and appended
to `neededMove`. -/
def appendExcess (g2s : GoMap Int (List Nat)) (expected : Nat) :
    List Int → List Nat → Except Fault (List Nat)
  | [], neededMove => .ok neededMove
  | gid :: order, neededMove =>
    match g2s.get? gid with
    | some sids =>
      if sids.length > expected then
        match sliceFrom sids expected with
        | .ok excess => appendExcess g2s expected order (neededMove ++ excess)
        | .error f => .error f
      else appendExcess g2s expected order neededMove
    | none => appendExcess g2s expected order neededMove

/-- The loop that builds `candidateGids`: the gids, in the order of `gids`, that have no
entry in `g2s` or fewer than `expected` shards. -/
def candidates (g2s : GoMap Int (List Nat)) (expected : Nat) (gids : List Int) : List Int :=
  gids.filter (fun gid => match g2s.get? gid with
    | none => true
    | some sids => decide (sids.length < expected))

/-- The inner loop `for ; nIndex < len(neededMove) && nIndex < end; nIndex++`, where
`end` is `nIndex` plus the first argument on entry.  The cursor `nIndex` is carried as
the entries of `neededMove` not yet consumed, `neededMove[nIndex:]`. -/
def assign (gid : Int) : Nat → List Nat → List Int → Except Fault (List Int × List Nat)
  | 0, rest, shards => .ok (shards, rest)
  | _ + 1, [], shards => .ok (shards, [])
  | n + 1, sid :: rest, shards =>
    match setIndex shards sid gid with
    | .ok shards' => assign gid n rest shards'
    | .error f => .error f

/-- The loop `for _, gid := range candidateGids` of `updateConfig`. -/
def fillCandidates (g2s : GoMap Int (List Nat)) (expected : Nat) :
    List Int → List Nat → List Int → Except Fault (List Int × List Nat)
  | [], rest, shards => .ok (shards, rest)
  | gid :: gs, rest, shards =>
    match g2s.get? gid with
    | none =>
      match assign gid expected rest shards with
      | .ok (shards', rest') => fillCandidates g2s expected gs rest' shards'
      | .error f => .error f
    | some sids =>
      if sids.length < expected then
        match assign gid (expected - sids.length) rest shards with
        | .ok (shards', rest') => fillCandidates g2s expected gs rest' shards'
        | .error f => .error f
      else fillCandidates g2s expected gs rest shards

/-- The loop `for nIndex < len(neededMove) && len(candidateGids) != 0`, the cursor
carried as in `assign`. -/
def roundRobin (candidateGids : List Int) : Nat → List Nat → List Int → Except Fault (List Int)
  | _, [], shards => .ok shards
  | gIndex, sid :: rest, shards =>
    if candidateGids.length = 0 then .ok shards
    else
      let gIndex := if gIndex = candidateGids.length then 0 else gIndex
      match candidateGids[gIndex]? with
      | none => .error Fault.indexOutOfRange
      | some gid =>
        match setIndex shards sid gid with
        | .ok shards' => roundRobin candidateGids (gIndex + 1) rest shards'
        | .error f => .error f

/-- The function `updateConfig`: rebalances `config.Shards` and appends `config`. -/
def updateConfig (sch : Sched) (sm : ShardMaster) (config : Config) : Except Fault ShardMaster :=
  let gids := sch.rangeGroups config.Groups.keys
  let (g2s, neededMove) := groupShards config.Groups 0 config.Shards ([], [])
  if gids.length = 0 then .error Fault.divideByZero
  else
    let expected := expectedLoad config.Shards.length gids.length
    match appendExcess g2s expected (sch.rangeG2s g2s.keys) neededMove with
    | .error f => .error f
    | .ok neededMove =>
      let candidateGids := candidates g2s expected gids
      match fillCandidates g2s expected candidateGids neededMove config.Shards with
      | .error f => .error f
      | .ok (shards, rest) =>
        match roundRobin candidateGids 0 rest shards with
        | .error f => .error f
        | .ok shards' =>
          .ok { sm with configs := sm.configs ++ [{ config with Shards := shards' }] }

/-! ## `runServer` -/

/-- The store `config.Shards[op.Shard] = op.GID` of the `MOVE` case. -/
def setShard (a : List Int) (i : Int) (v : Int) : Except Fault (List Int) :=
  if 0 ≤ i then setIndex a i.toNat v else .error Fault.indexOutOfRange

/-- The loop `for gid, servers := range op.Servers` of the `JOIN` case. -/
def joinGroups (enum : List Int → List Int) (servers : GoMap Int (List String))
    (groups : GoMap Int (List String)) : GoMap Int (List String) :=
  (enum servers.keys).foldl
    (fun acc gid => match servers.get? gid with
      | some v => acc.set gid v
      | none => acc) groups

/-- The loop `for _, gid := range op.GIDs` of the `LEAVE` case. -/
def leaveGroups (gids : List Int) (groups : GoMap Int (List String)) :
    GoMap Int (List String) :=
  gids.foldl (fun acc gid => acc.delete gid) groups

/-- One iteration of the loop of `runServer`: the apply step for the message `msg`. -/
def applyMsg (NShards : Nat) (sch : Sched) (sm : ShardMaster) (msg : ApplyMsg) :
    Except Fault ShardMaster :=
  let op : Op := msg.Command.getD {}
  if checkDuplicate sm op.Cid op.Seq then .ok sm
  else if op.Typ = JOIN then
    match newConfig NShards sch.rangeOld sm with
    | .error f => .error f
    | .ok config =>
      match updateConfig sch sm
          { config with Groups := joinGroups sch.rangeServers op.Servers config.Groups } with
      | .error f => .error f
      | .ok sm' => success sm' msg.Index op
  else if op.Typ = LEAVE then
    match newConfig NShards sch.rangeOld sm with
    | .error f => .error f
    | .ok config =>
      match updateConfig sch sm
          { config with Groups := leaveGroups op.GIDs config.Groups } with
      | .error f => .error f
      | .ok sm' => success sm' msg.Index op
  else if op.Typ = MOVE then
    match newConfig NShards sch.rangeOld sm with
    | .error f => .error f
    | .ok config =>
      match setShard config.Shards op.Shard op.GID with
      | .error f => .error f
      | .ok shards =>
        success { sm with configs := sm.configs ++ [{ config with Shards := shards }] }
          msg.Index op
  else if op.Typ = QUERY then success sm msg.Index op
  else .ok sm

/-- The apply loop fed a finite stretch of the commit stream, one schedule for each
message; it stops at the first step that does not complete. -/
def runServer (NShards : Nat) : ShardMaster → List (Sched × ApplyMsg) → Except Fault ShardMaster
  | sm, [] => .ok sm
  | sm, (sch, msg) :: rest =>
    match applyMsg NShards sch sm msg with
    | .error f => .error f
    | .ok sm' => runServer NShards sm' rest

/-! ## Handler side: `appendLog`, `Query` -/

/-- The function `appendLog` up to its `select`: `index` and `isLeader` are what
`rf.Start(op)` returned.  A leader stores a fresh channel under `index`. -/
def appendLogRegister (sm : ShardMaster) (index : Int) (isLeader : Bool) : ShardMaster :=
  if !isLeader then sm else { sm with result := sm.result.set index [] }

/-- The case `idx := <-sm.result[index]` of the `select` of `appendLog`, enabled when the
channel holds a value: the value is taken, `request[op.Cid] = op.Seq` is stored, and
`idx == op.Index` is returned. -/
def appendLogReceive (sm : ShardMaster) (op : Op) (index : Int) : Option (ShardMaster × Bool) :=
  match sm.result.get? index with
  | some (idx :: rest) =>
    some ({ sm with result := sm.result.set index rest
                    request := sm.request.set op.Cid op.Seq }, decide (idx = op.Index))
  | _ => none

/-- The case `<-time.After(200 * time.Millisecond)` of the `select` of `appendLog`. -/
def appendLogTimeout (sm : ShardMaster) : ShardMaster × Bool := (sm, false)

/-- The Go index expression `configs[i]`. -/
def indexConfig (configs : List Config) (i : Int) : Except Fault Config :=
  if 0 ≤ i then
    match configs[i.toNat]? with
    | some c => .ok c
    | none => .error Fault.indexOutOfRange
  else .error Fault.indexOutOfRange

/-- The type `QueryReply`. -/
structure QueryReply where
  WrongLeader : Bool
  Err : String
  Config : Config
  deriving DecidableEq, Repr

/-- The handler `Query` after its call of `appendLog`, whose result is `appended`;
`num` is `args.Num`. -/
def Query (sm : ShardMaster) (num : Int) (appended : Bool) (reply : QueryReply) :
    Except Fault QueryReply :=
  if !appended then .ok { reply with WrongLeader := true, Err := "This node is not leader" }
  else
    match (if num < 0 ∨ num ≥ (sm.configs.length : Int)
           then indexConfig sm.configs ((sm.configs.length : Int) - 1)
           else indexConfig sm.configs num) with
    | .error f => .error f
    | .ok c => .ok { reply with Config := c, WrongLeader := false }

/-! ## Reachable states -/

/-- The states of a replica: `StartServer`'s state, closed under apply steps that
complete and under the steps of a handler in `appendLog`. -/
inductive Reachable (NShards : Nat) : ShardMaster → Prop where
  | start : Reachable NShards (StartServer NShards)
  | apply {sm sm' : ShardMaster} (sch : Sched) (msg : ApplyMsg) :
      Reachable NShards sm → sch.Valid → applyMsg NShards sch sm msg = .ok sm' →
      Reachable NShards sm'
  | register {sm : ShardMaster} (index : Int) (isLeader : Bool) :
      Reachable NShards sm → Reachable NShards (appendLogRegister sm index isLeader)
  | receive {sm sm' : ShardMaster} (op : Op) (index : Int) (b : Bool) :
      Reachable NShards sm → appendLogReceive sm op index = some (sm', b) →
      Reachable NShards sm'

/-- The number of shards of `shards` owned by `gid`. -/
def owned (shards : List Int) (gid : Int) : Nat := shards.count gid

/-- The `Op` built by the handler `Join`. -/
def joinOp (cid seq : Int) (servers : GoMap Int (List String)) : Op :=
  { Typ := JOIN, Cid := cid, Seq := seq, Servers := servers }

/-- The `Op` built by the handler `Leave`. -/
def leaveOp (cid seq : Int) (gids : List Int) : Op :=
  { Typ := LEAVE, GIDs := gids, Cid := cid, Seq := seq }

/-- The `Op` built by the handler `Move`. -/
def moveOp (cid seq : Int) (shard gid : Int) : Op :=
  { Typ := MOVE, Shard := shard, GID := gid, Cid := cid, Seq := seq }

/-- The `Op` built by the handler `Query`. -/
def queryOp (cid seq : Int) (num : Int) : Op :=
  { Typ := QUERY, Num := num, Cid := cid, Seq := seq }

/-- A replica on which client 1's command with sequence number 5 has been applied and
acknowledged, and on which a handler serving the retransmission waits on index 7. -/
def retryState : ShardMaster :=
  { request := [(1, 5)]
    result := [(7, [])]
    configs := [{ Num := 0, Shards := List.replicate 10 0, Groups := [] }] }

/-- The balance bound for a configuration: every group of `Groups` owns
`len(Shards) / N` shards or that quotient rounded up, `N` the number of groups. -/
def Balanced (c : Config) : Prop :=
  ∀ g ∈ c.Groups.keys,
    owned c.Shards g = c.Shards.length / c.Groups.keys.length ∨
    owned c.Shards g = (c.Shards.length + c.Groups.keys.length - 1) / c.Groups.keys.length

/-- Every shard of the configuration is owned by a group of `Groups`. -/
def OwnedByMembers (c : Config) : Prop :=
  ∀ gid ∈ c.Shards, gid ∈ c.Groups.keys

/-- The commit stream of four `Join`s of one group each, gids 1, 2, 3, 4, by client 1, the
maps visited in stored order. -/
def fourJoins : List (Sched × ApplyMsg) :=
  [(Sched.stored, ⟨1, some (joinOp 1 1 [(1, ["a"])])⟩),
   (Sched.stored, ⟨2, some (joinOp 1 2 [(2, ["b"])])⟩),
   (Sched.stored, ⟨3, some (joinOp 1 3 [(3, ["c"])])⟩),
   (Sched.stored, ⟨4, some (joinOp 1 4 [(4, ["d"])])⟩)]

/-- The commit stream of a `Join` of the five groups 1 to 5 followed by `Leave([5])`, by
client 1, the maps visited in stored order. -/
def joinFiveLeaveOne : List (Sched × ApplyMsg) :=
  [(Sched.stored,
      ⟨1, some (joinOp 1 1 [(1, ["a"]), (2, ["b"]), (3, ["c"]), (4, ["d"]), (5, ["e"])])⟩),
   (Sched.stored, ⟨2, some (leaveOp 1 2 [5])⟩)]

/-- The groups from which the loop `for _, sids := range g2s` takes shards: those with
more than `expected` shards. -/
def overTarget (g2s : GoMap Int (List Nat)) (expected : Nat) (gid : Int) : Bool :=
  match g2s.get? gid with
  | some sids => decide (sids.length > expected)
  | none => false

/-- The `Shards` arrays of the configurations of a result, none for a fault. -/
def shardsOf (r : Except Fault ShardMaster) : List (List Int) :=
  match r with
  | .ok sm => sm.configs.map (fun c => c.Shards)
  | .error _ => []

/-- A schedule that visits `config.Groups` from the last key to the first. -/
def reversedGroups : Sched := ⟨id, id, List.reverse, id⟩

/-- A schedule that visits `config.Groups` starting from its second key and `g2s` from
the last key to the first. -/
def shuffled : Sched := ⟨id, id, fun l => l.rotate 1, List.reverse⟩

/-- The configurations of `configs` are numbered by their positions. -/
def Numbered (configs : List Config) : Prop :=
  ∀ (i : Nat) (c : Config), configs[i]? = some c → c.Num = (i : Int)

/-- The indices, counted from the first argument, of the entries of an array that satisfy
`p`, in ascending order. -/
def idxWhere (p : Int → Bool) : Nat → List Int → List Nat
  | _, [] => []
  | off, o :: rest =>
    if p o then off :: idxWhere p (off + 1) rest else idxWhere p (off + 1) rest

/-- The shards owned by `gid`, in ascending order. -/
def ownedIdx (shards : List Int) (gid : Int) : List Nat :=
  idxWhere (fun o => decide (o = gid)) 0 shards

/-- The shards whose owner is not a key of `groups`, in ascending order. -/
def orphanIdx (groups : GoMap Int (List String)) (shards : List Int) : List Nat :=
  idxWhere (fun o => !groups.contains o) 0 shards

/-- The map `g2s` of `updateConfig` after the loop over `config.Shards`. -/
def g2sOf (config : Config) : GoMap Int (List Nat) :=
  (groupShards config.Groups 0 config.Shards ([], [])).1

/-- The value of `expected` in `updateConfig`, for valid schedules (`len(gids)` is the
number of keys of `config.Groups`). -/
def expectedOf (config : Config) : Nat :=
  expectedLoad config.Shards.length config.Groups.keys.length

/-- The list `neededMove` of `updateConfig` after the loop over `g2s`; the loop completes
(`appendExcess_eq`). -/
def neededMoveOf (sch : Sched) (config : Config) : List Nat :=
  match appendExcess (g2sOf config) (expectedOf config) (sch.rangeG2s (g2sOf config).keys)
      (groupShards config.Groups 0 config.Shards ([], [])).2 with
  | .ok neededMove => neededMove
  | .error _ => []

/-- The list `candidateGids` of `updateConfig`. -/
def candidatesOf (sch : Sched) (config : Config) : List Int :=
  candidates (g2sOf config) (expectedOf config) (sch.rangeGroups config.Groups.keys)

/-- The function `appendLog` on its two paths without a signal: `rf.Start` reports that
the replica is not the leader, or the waiter is registered and the wait ends by timeout.
The result is the state and the value returned. -/
def appendLogNoSignal (sm : ShardMaster) (index : Int) (isLeader : Bool) : ShardMaster × Bool :=
  if !isLeader then (sm, false) else appendLogTimeout (appendLogRegister sm index isLeader)

/-- The commands that the handlers `Join`, `Leave`, `Move` and `Query` build. -/
def HandlerBuilt (op : Op) : Prop :=
  (∃ cid seq servers, op = joinOp cid seq servers) ∨
  (∃ cid seq gids, op = leaveOp cid seq gids) ∨
  (∃ cid seq shard gid, op = moveOp cid seq shard gid) ∨
  (∃ cid seq num, op = queryOp cid seq num)

/-- The configuration that `StartServer` stores at index 0. -/
def initialConfig (NShards : Nat) : Config :=
  { Num := 0, Shards := List.replicate NShards 0, Groups := [] }

/-- The configurations of the scenario of the specification: the initial one, then those
appended by `Join({100: [addrA]})`, `Join({101: [addrB]})`, `Leave([100])` and
`Move(3, 101)`. -/
def scenarioConfigs : List Config :=
  [ { Num := 0, Shards := List.replicate 10 0, Groups := [] },
    { Num := 1, Shards := List.replicate 10 100, Groups := [(100, ["addrA"])] },
    { Num := 2, Shards := [100, 100, 100, 100, 100, 101, 101, 101, 101, 101],
      Groups := [(100, ["addrA"]), (101, ["addrB"])] },
    { Num := 3, Shards := List.replicate 10 101, Groups := [(101, ["addrB"])] },
    { Num := 4, Shards := List.replicate 10 101, Groups := [(101, ["addrB"])] } ]

/-- The commit stream of the scenario, one schedule for each command. -/
def scenarioStream (sch₁ sch₂ sch₃ sch₄ : Sched) : List (Sched × ApplyMsg) :=
  [(sch₁, ⟨1, some (joinOp 1 1 [(100, ["addrA"])])⟩),
   (sch₂, ⟨2, some (joinOp 1 2 [(101, ["addrB"])])⟩),
   (sch₃, ⟨3, some (leaveOp 1 3 [100])⟩),
   (sch₄, ⟨4, some (moveOp 1 4 3 101)⟩)]

/-! ## Basic facts -/

theorem GoMap.get?_nil {ν : Type} (k : Int) : GoMap.get? ([] : GoMap Int ν) k = none := rfl

theorem GoMap.get?_cons {ν : Type} (k' : Int) (v : ν) (rest : GoMap Int ν) (k : Int) :
    GoMap.get? ((k', v) :: rest) k = if k' = k then some v else GoMap.get? rest k := rfl

theorem GoMap.get?_rebind {ν : Type} (m : GoMap Int ν) (k : Int) (v : ν)
    (hc : (m.get? k).isSome = true) :
    GoMap.get? (m.map (fun p => if p.1 = k then (k, v) else p)) k = some v := by
  induction m with
  | nil => simp [GoMap.get?_nil] at hc
  | cons p rest ih =>
    obtain ⟨k', v'⟩ := p
    rw [GoMap.get?_cons] at hc
    by_cases hk : k' = k
    · rw [List.map_cons, if_pos hk, GoMap.get?_cons, if_pos rfl]
    · rw [if_neg hk] at hc
      rw [List.map_cons, if_neg hk, GoMap.get?_cons, if_neg hk]
      exact ih hc

theorem GoMap.get?_append_new {ν : Type} (m : GoMap Int ν) (k : Int) (v : ν)
    (hc : ¬ (m.get? k).isSome = true) :
    GoMap.get? (m ++ [(k, v)]) k = some v := by
  induction m with
  | nil => rw [List.nil_append, GoMap.get?_cons, if_pos rfl]
  | cons p rest ih =>
    obtain ⟨k', v'⟩ := p
    rw [GoMap.get?_cons] at hc
    by_cases hk : k' = k
    · rw [if_pos hk] at hc
      exact absurd rfl hc
    · rw [if_neg hk] at hc
      rw [List.cons_append, GoMap.get?_cons, if_neg hk]
      exact ih hc

theorem GoMap.get?_set_self {ν : Type} (m : GoMap Int ν) (k : Int) (v : ν) :
    (m.set k v).get? k = some v := by
  unfold GoMap.set GoMap.contains
  split
  · rename_i hc
    exact GoMap.get?_rebind m k v hc
  · rename_i hc
    exact GoMap.get?_append_new m k v hc

theorem updateConfig_ok {sch : Sched} {sm sm' : ShardMaster} {config : Config}
    (h : updateConfig sch sm config = .ok sm') :
    ∃ shards, sm' = { sm with configs := sm.configs ++ [{ config with Shards := shards }] } := by
  unfold updateConfig at h
  simp only at h
  split at h
  · cases h
  · split at h
    · cases h
    · split at h
      · cases h
      · split at h
        · cases h
        · rename_i shards' _
          exact ⟨shards', by cases h; rfl⟩

theorem success_ok {sm sm' : ShardMaster} {index : Int} {op : Op}
    (h : success sm index op = .ok sm') :
    sm'.request = sm.request ∧ sm'.configs = sm.configs ∧
      (sm.result.get? index = none ∧ sm' = sm ∨
       sm.result.get? index = some [] ∧ sm'.result = sm.result.set index [op.Index]) := by
  unfold success at h
  split at h
  · rename_i ch hch
    split at h
    · rename_i hlen
      have hnil : ch = [] := List.length_eq_zero.mp (by omega)
      subst hnil
      cases h
      exact ⟨rfl, rfl, Or.inr ⟨hch, rfl⟩⟩
    · cases h
  · rename_i hch
    cases h
    exact ⟨rfl, rfl, Or.inl ⟨hch, rfl⟩⟩

theorem newConfig_ok {NShards : Nat} {enum : List Int → List Int} {sm : ShardMaster}
    {config : Config} (h : newConfig NShards enum sm = .ok config) :
    ∃ oldConfig, sm.configs.getLast? = some oldConfig ∧ config.Num = oldConfig.Num + 1 := by
  unfold newConfig at h
  split at h
  · cases h
  · rename_i oldConfig hold
    cases h
    exact ⟨oldConfig, hold, rfl⟩

theorem applyMsg_duplicate (NShards : Nat) (sch : Sched) (sm : ShardMaster) (msg : ApplyMsg)
    (hd : checkDuplicate sm (msg.Command.getD {}).Cid (msg.Command.getD {}).Seq = true) :
    applyMsg NShards sch sm msg = .ok sm := by
  unfold applyMsg
  simp only [hd, if_true]

/-- The shape of an apply step that completes on a command that is not a duplicate: a
state `mid` that differs from `sm` at most by one appended configuration, followed by
`success`. -/
theorem applyMsg_fresh {NShards : Nat} {sch : Sched} {sm sm' : ShardMaster} {msg : ApplyMsg}
    (h : applyMsg NShards sch sm msg = .ok sm')
    (hd : checkDuplicate sm (msg.Command.getD {}).Cid (msg.Command.getD {}).Seq = false) :
    ((msg.Command.getD {}).Typ = JOIN ∨ (msg.Command.getD {}).Typ = LEAVE ∨
        (msg.Command.getD {}).Typ = MOVE) ∧
      (∃ mid oldConfig config, sm.configs.getLast? = some oldConfig ∧
        config.Num = oldConfig.Num + 1 ∧
        mid = { sm with configs := sm.configs ++ [config] } ∧
        success mid msg.Index (msg.Command.getD {}) = .ok sm') ∨
    (msg.Command.getD {}).Typ = QUERY ∧ success sm msg.Index (msg.Command.getD {}) = .ok sm' ∨
    ((msg.Command.getD {}).Typ ≠ JOIN ∧ (msg.Command.getD {}).Typ ≠ LEAVE ∧
        (msg.Command.getD {}).Typ ≠ MOVE ∧ (msg.Command.getD {}).Typ ≠ QUERY) ∧ sm' = sm := by
  unfold applyMsg at h
  simp only [hd, Bool.false_eq_true, if_false] at h
  by_cases hj : (msg.Command.getD {}).Typ = JOIN
  · rw [if_pos hj] at h
    left
    refine ⟨Or.inl hj, ?_⟩
    split at h
    · cases h
    · rename_i config hn
      split at h
      · cases h
      · rename_i mid hu
        obtain ⟨oldConfig, hold, hnum⟩ := newConfig_ok hn
        obtain ⟨shards, hmid⟩ := updateConfig_ok hu
        refine ⟨mid, oldConfig, _, hold, ?_, hmid, h⟩
        exact hnum
  · rw [if_neg hj] at h
    by_cases hl : (msg.Command.getD {}).Typ = LEAVE
    · rw [if_pos hl] at h
      left
      refine ⟨Or.inr (Or.inl hl), ?_⟩
      split at h
      · cases h
      · rename_i config hn
        split at h
        · cases h
        · rename_i mid hu
          obtain ⟨oldConfig, hold, hnum⟩ := newConfig_ok hn
          obtain ⟨shards, hmid⟩ := updateConfig_ok hu
          refine ⟨mid, oldConfig, _, hold, ?_, hmid, h⟩
          exact hnum
    · rw [if_neg hl] at h
      by_cases hm : (msg.Command.getD {}).Typ = MOVE
      · rw [if_pos hm] at h
        left
        refine ⟨Or.inr (Or.inr hm), ?_⟩
        split at h
        · cases h
        · rename_i config hn
          split at h
          · cases h
          · rename_i shards hs
            obtain ⟨oldConfig, hold, hnum⟩ := newConfig_ok hn
            exact ⟨_, oldConfig, { config with Shards := shards }, hold, hnum, rfl, h⟩
      · rw [if_neg hm] at h
        by_cases hq : (msg.Command.getD {}).Typ = QUERY
        · rw [if_pos hq] at h
          exact Or.inr (Or.inl ⟨hq, h⟩)
        · rw [if_neg hq] at h
          cases h
          exact Or.inr (Or.inr ⟨⟨hj, hl, hm, hq⟩, rfl⟩)

theorem checkDuplicate_cases (sm : ShardMaster) (cid seq : Int) :
    checkDuplicate sm cid seq = true ∨ checkDuplicate sm cid seq = false := by
  cases checkDuplicate sm cid seq
  · exact Or.inr rfl
  · exact Or.inl rfl

/-- An apply step that completes leaves `request` as it was. -/
theorem applyMsg_request {NShards : Nat} {sch : Sched} {sm sm' : ShardMaster} {msg : ApplyMsg}
    (h : applyMsg NShards sch sm msg = .ok sm') : sm'.request = sm.request := by
  rcases checkDuplicate_cases sm (msg.Command.getD {}).Cid (msg.Command.getD {}).Seq with hd | hd
  · rw [applyMsg_duplicate NShards sch sm msg hd] at h
    cases h
    rfl
  · rcases applyMsg_fresh h hd with ⟨_, mid, oldConfig, config, _, _, hmid, hs⟩ | ⟨_, hs⟩ | ⟨_, he⟩
    · rw [(success_ok hs).1, hmid]
    · exact (success_ok hs).1
    · rw [he]

/-- An apply step that completes leaves `configs` as it was or appends one configuration
numbered one more than the last. -/
theorem applyMsg_configs {NShards : Nat} {sch : Sched} {sm sm' : ShardMaster} {msg : ApplyMsg}
    (h : applyMsg NShards sch sm msg = .ok sm') :
    sm'.configs = sm.configs ∨
    ∃ oldConfig config, sm.configs.getLast? = some oldConfig ∧
      config.Num = oldConfig.Num + 1 ∧ sm'.configs = sm.configs ++ [config] := by
  rcases checkDuplicate_cases sm (msg.Command.getD {}).Cid (msg.Command.getD {}).Seq with hd | hd
  · rw [applyMsg_duplicate NShards sch sm msg hd] at h
    cases h
    exact Or.inl rfl
  · rcases applyMsg_fresh h hd with ⟨_, mid, oldConfig, config, hold, hnum, hmid, hs⟩ | ⟨_, hs⟩ | ⟨_, he⟩
    · right
      refine ⟨oldConfig, config, hold, hnum, ?_⟩
      rw [(success_ok hs).2.1, hmid]
    · exact Or.inl (success_ok hs).2.1
    · rw [he]
      exact Or.inl rfl

/-- An apply step that completes on a `JOIN`, `LEAVE` or `MOVE` that is not a duplicate
appends exactly one configuration. -/
theorem applyMsg_append {NShards : Nat} {sch : Sched} {sm sm' : ShardMaster} {msg : ApplyMsg}
    (h : applyMsg NShards sch sm msg = .ok sm')
    (hd : checkDuplicate sm (msg.Command.getD {}).Cid (msg.Command.getD {}).Seq = false)
    (ht : (msg.Command.getD {}).Typ = JOIN ∨ (msg.Command.getD {}).Typ = LEAVE ∨
        (msg.Command.getD {}).Typ = MOVE) :
    ∃ config, sm'.configs = sm.configs ++ [config] := by
  rcases applyMsg_fresh h hd with ⟨_, mid, oldConfig, config, hold, hnum, hmid, hs⟩ | ⟨hq, _⟩ | ⟨hn, _⟩
  · exact ⟨config, by rw [(success_ok hs).2.1, hmid]⟩
  · exfalso
    rcases ht with ht | ht | ht <;> rw [hq] at ht <;> revert ht <;> decide
  · exfalso
    rcases ht with ht | ht | ht
    · exact hn.1 ht
    · exact hn.2.1 ht
    · exact hn.2.2.1 ht

theorem stored_valid : Sched.stored.Valid :=
  ⟨fun l => List.Perm.refl l, fun l => List.Perm.refl l, fun l => List.Perm.refl l,
    fun l => List.Perm.refl l⟩

/-! ## Rebalancing after `Join` and `Leave` -/

/-- C1 fails on the code.  After the four `Join`s of `fourJoins` on the initial state with
10 shards, the last configuration has the groups 1, 2, 3, 4 and the shards
`[1, 1, 4, 3, 3, 2, 2, 4, 4, 4]`: group 4 owns 4 shards, neither `10 / 4 = 2` nor 3. -/
theorem four_joins_unbalanced :
    ∃ sm c, runServer 10 (StartServer 10) fourJoins = .ok sm ∧
      sm.configs.getLast? = some c ∧
      c.Groups.keys = [1, 2, 3, 4] ∧ c.Shards = [1, 1, 4, 3, 3, 2, 2, 4, 4, 4] ∧
      owned c.Shards 4 = 4 ∧ ¬ Balanced c := by
  refine ⟨_, _, rfl, rfl, rfl, rfl, rfl, ?_⟩
  intro hb
  have h4 := hb 4 (by decide)
  revert h4
  decide

/-- C2 fails on the code.  After the `Join` of the groups 1 to 5 and `Leave([5])` on the
initial state with 10 shards, the last configuration has the groups 1, 2, 3, 4 and the
shards `[1, 1, 2, 2, 3, 3, 4, 4, 5, 5]`: shards 8 and 9 are still owned by group 5. -/
theorem leave_keeps_removed_owner :
    ∃ sm c, runServer 10 (StartServer 10) joinFiveLeaveOne = .ok sm ∧
      sm.configs.getLast? = some c ∧
      c.Groups.keys = [1, 2, 3, 4] ∧ c.Shards = [1, 1, 2, 2, 3, 3, 4, 4, 5, 5] ∧
      ¬ OwnedByMembers c := by
  refine ⟨_, _, rfl, rfl, rfl, rfl, ?_⟩
  intro ho
  have h5 := ho 5 (by decide)
  revert h5
  decide

/-! ## Visiting orders -/

theorem sliceFrom_ok (sids : List Nat) (lo : Nat) (h : lo ≤ sids.length) :
    sliceFrom sids lo = .ok (sids.drop lo) := by
  unfold sliceFrom
  rw [if_pos h]

theorem appendExcess_cons_over (g2s : GoMap Int (List Nat)) (expected : Nat) (gid : Int)
    (order : List Int) (neededMove sids : List Nat)
    (hg : g2s.get? gid = some sids) (hlen : sids.length > expected) :
    appendExcess g2s expected (gid :: order) neededMove =
      appendExcess g2s expected order (neededMove ++ sids.drop expected) := by
  rw [appendExcess]
  simp only [hg, hlen, if_true, sliceFrom_ok sids expected (Nat.le_of_lt hlen)]

theorem appendExcess_cons_skip (g2s : GoMap Int (List Nat)) (expected : Nat) (gid : Int)
    (order : List Int) (neededMove : List Nat) (ho : overTarget g2s expected gid = false) :
    appendExcess g2s expected (gid :: order) neededMove =
      appendExcess g2s expected order neededMove := by
  rw [appendExcess]
  unfold overTarget at ho
  cases hg : g2s.get? gid with
  | none => rfl
  | some sids =>
    rw [hg] at ho
    have hlen : ¬ sids.length > expected := of_decide_eq_false ho
    simp only [hlen, if_false]

theorem overTarget_of_some (g2s : GoMap Int (List Nat)) (expected : Nat) (gid : Int)
    (sids : List Nat) (hg : g2s.get? gid = some sids) :
    overTarget g2s expected gid = decide (sids.length > expected) := by
  unfold overTarget
  rw [hg]

theorem appendExcess_overTarget (g2s : GoMap Int (List Nat)) (expected : Nat)
    (order : List Int) (neededMove : List Nat) :
    appendExcess g2s expected order neededMove =
      appendExcess g2s expected (order.filter (overTarget g2s expected)) neededMove := by
  induction order generalizing neededMove with
  | nil => rfl
  | cons gid rest ih =>
    rw [List.filter_cons]
    cases ho : overTarget g2s expected gid with
    | false =>
      rw [appendExcess_cons_skip g2s expected gid rest neededMove ho]
      simp only [Bool.false_eq_true, if_false]
      exact ih neededMove
    | true =>
      simp only [if_true]
      cases hg : g2s.get? gid with
      | none =>
        unfold overTarget at ho
        rw [hg] at ho
        cases ho
      | some sids =>
        rw [overTarget_of_some g2s expected gid sids hg] at ho
        have hlen : sids.length > expected := of_decide_eq_true ho
        rw [appendExcess_cons_over g2s expected gid rest neededMove sids hg hlen,
          appendExcess_cons_over g2s expected gid _ neededMove sids hg hlen]
        exact ih _

/-- The loop over `g2s` completes: no slice is taken out of range.  Its result is
`neededMove` followed, group by group, by the shards beyond the first `expected`. -/
theorem appendExcess_eq (g2s : GoMap Int (List Nat)) (expected : Nat) (order : List Int)
    (nm : List Nat) :
    appendExcess g2s expected order nm =
      .ok (nm ++ order.flatMap (fun g => ((g2s.get? g).getD []).drop expected)) := by
  induction order generalizing nm with
  | nil =>
    rw [appendExcess]
    simp
  | cons g rest ih =>
    rw [List.flatMap_cons, ← List.append_assoc]
    cases hg : GoMap.get? g2s g with
    | none =>
      have ho : overTarget g2s expected g = false := by
        unfold overTarget
        rw [hg]
      rw [appendExcess_cons_skip g2s expected g rest nm ho, ih]
      simp
    | some sids =>
      by_cases hlen : sids.length > expected
      · rw [appendExcess_cons_over g2s expected g rest nm sids hg hlen, ih]
        simp
      · have ho : overTarget g2s expected g = false := by
          rw [overTarget_of_some g2s expected g sids hg]
          exact decide_eq_false hlen
        have hd : sids.drop expected = [] := List.drop_eq_nil_of_le (by omega)
        rw [appendExcess_cons_skip g2s expected g rest nm ho, ih]
        simp [hd]

theorem reversedGroups_valid : reversedGroups.Valid :=
  ⟨fun l => List.Perm.refl l, fun l => List.Perm.refl l, fun l => List.reverse_perm l,
    fun l => List.Perm.refl l⟩

theorem shuffled_valid : shuffled.Valid :=
  ⟨fun l => List.Perm.refl l, fun l => List.Perm.refl l, fun l => List.rotate_perm l 1,
    fun l => List.reverse_perm l⟩

/-- C3, as the code has it.  The result of `updateConfig` depends on the visiting orders
of `config.Groups` and of `g2s` only through the order of `candidateGids` (the gids with
fewer than `expected` shards, in the order of `gids`) and the order in which the groups
with more than `expected` shards are visited: two schedules that agree on these give the
same result. -/
theorem updateConfig_order (sch₁ sch₂ : Sched) (sm : ShardMaster) (config : Config)
    (hv₁ : IsEnum sch₁.rangeGroups) (hv₂ : IsEnum sch₂.rangeGroups)
    (hc : candidates (groupShards config.Groups 0 config.Shards ([], [])).1
            (expectedLoad config.Shards.length config.Groups.keys.length)
            (sch₁.rangeGroups config.Groups.keys) =
          candidates (groupShards config.Groups 0 config.Shards ([], [])).1
            (expectedLoad config.Shards.length config.Groups.keys.length)
            (sch₂.rangeGroups config.Groups.keys))
    (he : (sch₁.rangeG2s (groupShards config.Groups 0 config.Shards ([], [])).1.keys).filter
            (overTarget (groupShards config.Groups 0 config.Shards ([], [])).1
              (expectedLoad config.Shards.length config.Groups.keys.length)) =
          (sch₂.rangeG2s (groupShards config.Groups 0 config.Shards ([], [])).1.keys).filter
            (overTarget (groupShards config.Groups 0 config.Shards ([], [])).1
              (expectedLoad config.Shards.length config.Groups.keys.length))) :
    updateConfig sch₁ sm config = updateConfig sch₂ sm config := by
  have hl₁ : (sch₁.rangeGroups config.Groups.keys).length = config.Groups.keys.length :=
    (hv₁ _).length_eq
  have hl₂ : (sch₂.rangeGroups config.Groups.keys).length = config.Groups.keys.length :=
    (hv₂ _).length_eq
  unfold updateConfig
  rcases hgs : groupShards config.Groups 0 config.Shards ([], []) with ⟨g2s, neededMove⟩
  rw [hgs] at hc he
  simp only [hl₁, hl₂]
  rw [appendExcess_overTarget g2s _ (sch₁.rangeG2s _),
    appendExcess_overTarget g2s _ (sch₂.rangeG2s _), hc, he]

/-- Witness of `updateConfig_order`: groups 1, 2, 3 and shards `[1, 1, 1, 1, 1, 1, 2, 2, 3, 3]`,
with `expected = 3`; the stored schedule and `shuffled` visit the gids as `1, 2, 3` and
`2, 3, 1` and the keys of `g2s` as `1, 2, 3` and `3, 2, 1`, and agree on the candidates
`2, 3` and on the only group over target, 1. -/
theorem updateConfig_order_witness :
    (Sched.stored.rangeGroups [1, 2, 3] = [1, 2, 3] ∧ shuffled.rangeGroups [1, 2, 3] = [2, 3, 1] ∧
      Sched.stored.rangeG2s [1, 2, 3] = [1, 2, 3] ∧ shuffled.rangeG2s [1, 2, 3] = [3, 2, 1]) ∧
    updateConfig Sched.stored (StartServer 10)
        { Num := 1, Shards := [1, 1, 1, 1, 1, 1, 2, 2, 3, 3],
          Groups := [(1, ["a"]), (2, ["b"]), (3, ["c"])] } =
      updateConfig shuffled (StartServer 10)
        { Num := 1, Shards := [1, 1, 1, 1, 1, 1, 2, 2, 3, 3],
          Groups := [(1, ["a"]), (2, ["b"]), (3, ["c"])] } :=
  ⟨⟨rfl, rfl, rfl, rfl⟩,
    updateConfig_order Sched.stored shuffled (StartServer 10)
      { Num := 1, Shards := [1, 1, 1, 1, 1, 1, 2, 2, 3, 3],
        Groups := [(1, ["a"]), (2, ["b"]), (3, ["c"])] }
      stored_valid.2.2.1 shuffled_valid.2.2.1 rfl rfl⟩

/-- C3 fails as stated.  `Join({1: [a], 2: [b]})` is applied to the initial state with 10
shards by two replicas, one visiting `config.Groups` as `1, 2`, the other as `2, 1`: the
`Shards` computed by `updateConfig` are `[1, 1, 1, 1, 1, 2, 2, 2, 2, 2]` on the first and
`[2, 2, 2, 2, 2, 1, 1, 1, 1, 1]` on the second. -/
theorem replicas_diverge :
    Sched.stored.rangeGroups [1, 2] = [1, 2] ∧ reversedGroups.rangeGroups [1, 2] = [2, 1] ∧
    ∃ sm₁ sm₂ c₁ c₂,
      applyMsg 10 Sched.stored (StartServer 10)
        ⟨1, some (joinOp 1 1 [(1, ["a"]), (2, ["b"])])⟩ = .ok sm₁ ∧
      applyMsg 10 reversedGroups (StartServer 10)
        ⟨1, some (joinOp 1 1 [(1, ["a"]), (2, ["b"])])⟩ = .ok sm₂ ∧
      sm₁.configs.getLast? = some c₁ ∧ sm₂.configs.getLast? = some c₂ ∧
      c₁.Groups = c₂.Groups ∧
      c₁.Shards = [1, 1, 1, 1, 1, 2, 2, 2, 2, 2] ∧
      c₂.Shards = [2, 2, 2, 2, 2, 1, 1, 1, 1, 1] ∧
      updateConfig Sched.stored (StartServer 10)
          { Num := 1, Shards := List.replicate 10 0, Groups := [(1, ["a"]), (2, ["b"])] } ≠
        updateConfig reversedGroups (StartServer 10)
          { Num := 1, Shards := List.replicate 10 0, Groups := [(1, ["a"]), (2, ["b"])] } := by
  refine ⟨rfl, rfl, _, _, _, _, rfl, rfl, rfl, rfl, rfl, rfl, rfl, ?_⟩
  intro h
  have h' := congrArg shardsOf h
  revert h'
  decide

/-! ## `Leave` of every group -/

theorem GoMap.mem_set {ν : Type} (m : GoMap Int ν) (k : Int) (v : ν) (p : Int × ν)
    (hp : p ∈ m.set k v) : p.1 = k ∨ p ∈ m := by
  unfold GoMap.set at hp
  split at hp
  · obtain ⟨q, hq, hqp⟩ := List.mem_map.mp hp
    by_cases hk : q.1 = k
    · rw [if_pos hk] at hqp
      left
      rw [← hqp]
    · rw [if_neg hk] at hqp
      right
      rw [← hqp]
      exact hq
  · rcases List.mem_append.mp hp with h | h
    · exact Or.inr h
    · left
      rw [List.mem_singleton.mp h]

theorem copyGroups_keys (enum : List Int → List Int) (old : GoMap Int (List String))
    (p : Int × List String) (hp : p ∈ copyGroups enum old) : p.1 ∈ enum old.keys := by
  unfold copyGroups at hp
  have key : ∀ (l : List Int) (acc : GoMap Int (List String)),
      p ∈ l.foldl (fun acc k => match old.get? k with
        | some v => acc.set k v
        | none => acc) acc → p ∈ acc ∨ p.1 ∈ l := by
    intro l
    induction l with
    | nil =>
      intro acc h
      exact Or.inl h
    | cons k rest ih =>
      intro acc h
      rw [List.foldl_cons] at h
      rcases ih _ h with hacc | hrest
      · split at hacc
        · rcases GoMap.mem_set _ _ _ _ hacc with hk | hin
          · exact Or.inr (hk ▸ List.mem_cons_self _ _)
          · exact Or.inl hin
        · exact Or.inl hacc
      · exact Or.inr (List.mem_cons_of_mem _ hrest)
  rcases key _ _ hp with h | h
  · cases h
  · exact h

theorem leaveGroups_mem (gids : List Int) (groups : GoMap Int (List String))
    (p : Int × List String) (hp : p ∈ leaveGroups gids groups) : p ∈ groups ∧ p.1 ∉ gids := by
  unfold leaveGroups at hp
  induction gids generalizing groups with
  | nil => exact ⟨hp, List.not_mem_nil _⟩
  | cons g rest ih =>
    rw [List.foldl_cons] at hp
    obtain ⟨hin, hnot⟩ := ih _ hp
    unfold GoMap.delete at hin
    obtain ⟨hmem, hne⟩ := List.mem_filter.mp hin
    refine ⟨hmem, ?_⟩
    intro hcons
    rcases List.mem_cons.mp hcons with h | h
    · simp [h] at hne
    · exact hnot h

theorem updateConfig_no_groups (sch : Sched) (hv : sch.Valid) (sm : ShardMaster)
    (config : Config) (hg : config.Groups = []) :
    updateConfig sch sm config = .error Fault.divideByZero := by
  have hkeys : config.Groups.keys = [] := by
    rw [hg]
    rfl
  have hgids : sch.rangeGroups config.Groups.keys = [] := by
    rw [hkeys]
    exact List.Perm.eq_nil (hv.2.2.1 [])
  unfold updateConfig
  simp only [hgids, List.length_nil, if_true]

/-- C4 fails on the code.  In every state with a last configuration, a `LEAVE` that is not
a duplicate and whose `GIDs` cover every key of the last configuration's `Groups` does
not complete: `updateConfig` divides `len(config.Shards)` by `len(gids) = 0`, and no
configuration is appended. -/
theorem leave_all_divides_by_zero (NShards : Nat) (sch : Sched) (sm : ShardMaster)
    (index : Int) (op : Op) (oldConfig : Config)
    (hv : sch.Valid) (hlast : sm.configs.getLast? = some oldConfig)
    (ht : op.Typ = LEAVE) (hd : checkDuplicate sm op.Cid op.Seq = false)
    (hcover : ∀ k ∈ oldConfig.Groups.keys, k ∈ op.GIDs) :
    applyMsg NShards sch sm ⟨index, some op⟩ = .error Fault.divideByZero := by
  have hempty : leaveGroups op.GIDs (copyGroups sch.rangeOld oldConfig.Groups) = [] := by
    apply List.eq_nil_iff_forall_not_mem.mpr
    intro p hp
    obtain ⟨hin, hnot⟩ := leaveGroups_mem _ _ _ hp
    have hk := copyGroups_keys _ _ _ hin
    exact hnot (hcover _ ((hv.1 _).mem_iff.mp hk))
  have hj : ¬ LEAVE = JOIN := by decide
  have hu := updateConfig_no_groups sch hv sm
    { Num := oldConfig.Num + 1
      Shards := copyShards (List.replicate NShards 0) 0 oldConfig.Shards
      Groups := leaveGroups op.GIDs (copyGroups sch.rangeOld oldConfig.Groups) } hempty
  unfold applyMsg
  simp only [Option.getD_some, hd, Bool.false_eq_true, if_false, ht, if_true]
  unfold newConfig
  simp only [hlast]
  rw [if_neg hj, hu]

/-- The failing input of C4: on the state after `Join({1: [a]})`, `Leave([1])` is applied
and the step ends in a division by zero. -/
theorem leave_all_divides_by_zero_witness :
    ∃ sm, runServer 10 (StartServer 10)
        [(Sched.stored, ⟨1, some (joinOp 1 1 [(1, ["a"])])⟩)] = .ok sm ∧
      sm.configs.length = 2 ∧
      applyMsg 10 Sched.stored sm ⟨2, some (leaveOp 1 2 [1])⟩ = .error Fault.divideByZero :=
  ⟨_, rfl, rfl,
    leave_all_divides_by_zero 10 Sched.stored _ 2 (leaveOp 1 2 [1])
      { Num := 1, Shards := List.replicate 10 1, Groups := [(1, ["a"])] }
      stored_valid rfl rfl rfl (by decide)⟩

/-! ## The apply step and the waiter -/

/-- C5, as the code has it.  In a state with a waiter registered for log index `index`,
an apply step that completes on a command committed at `index` sends `op.Index` on the
waiter's channel when the command is not a duplicate and its type is `JOIN`, `LEAVE`,
`MOVE` or `QUERY`; when the command is a duplicate the channel is left as it was. -/
theorem apply_signals_unless_duplicate (NShards : Nat) (sch : Sched) (sm sm' : ShardMaster)
    (index : Int) (op : Op) (ch : List Int)
    (hw : sm.result.get? index = some ch)
    (h : applyMsg NShards sch sm ⟨index, some op⟩ = .ok sm') :
    (checkDuplicate sm op.Cid op.Seq = false →
      (op.Typ = JOIN ∨ op.Typ = LEAVE ∨ op.Typ = MOVE ∨ op.Typ = QUERY) →
      sm'.result.get? index = some (ch ++ [op.Index])) ∧
    (checkDuplicate sm op.Cid op.Seq = true → sm'.result.get? index = some ch) := by
  constructor
  · intro hd ht
    have key : ∀ mid : ShardMaster, mid.result = sm.result →
        success mid index op = .ok sm' → sm'.result.get? index = some (ch ++ [op.Index]) := by
      intro mid hres hs
      rcases (success_ok hs).2.2 with ⟨hnone, _⟩ | ⟨hsome, hset⟩
      · rw [hres, hw] at hnone
        cases hnone
      · rw [hres, hw] at hsome
        cases hsome
        rw [hset, hres]
        exact GoMap.get?_set_self _ _ _
    rcases applyMsg_fresh h hd with ⟨_, mid, _, _, _, _, hmid, hs⟩ | ⟨_, hs⟩ | ⟨hn, _⟩
    · exact key mid (by rw [hmid]) hs
    · exact key sm rfl hs
    · exfalso
      rcases ht with ht | ht | ht | ht
      · exact hn.1 ht
      · exact hn.2.1 ht
      · exact hn.2.2.1 ht
      · exact hn.2.2.2 ht
  · intro hd
    rw [applyMsg_duplicate NShards sch sm ⟨index, some op⟩ hd] at h
    cases h
    exact hw

/-- Witness of `apply_signals_unless_duplicate`: a `QUERY` committed at index 7, where a
waiter is registered, by a client without an entry in `request`. -/
theorem apply_signals_unless_duplicate_witness :
    GoMap.get? ({ retryState with request := [] } : ShardMaster).result 7 = some [] ∧
    applyMsg 10 Sched.stored { retryState with request := [] } ⟨7, some (queryOp 1 5 0)⟩ =
      .ok { retryState with request := [], result := [(7, [0])] } ∧
    GoMap.get? ({ retryState with request := [], result := [(7, [0])] } : ShardMaster).result 7 =
      some ([] ++ [(queryOp 1 5 0).Index]) :=
  ⟨rfl, rfl,
    (apply_signals_unless_duplicate 10 Sched.stored { retryState with request := [] }
      { retryState with request := [], result := [(7, [0])] } 7 (queryOp 1 5 0) [] rfl rfl).1
      rfl (Or.inr (Or.inr (Or.inr rfl)))⟩

/-- C5 fails as stated: on `retryState` the retransmitted command of client 1 (sequence
number 5, already recorded in `request`) commits at index 7, where a waiter is
registered; the apply step completes and the waiter's channel is still empty. -/
theorem duplicate_not_signalled :
    retryState.result.get? 7 = some [] ∧
    checkDuplicate retryState (joinOp 1 5 [(1, ["a"])]).Cid (joinOp 1 5 [(1, ["a"])]).Seq = true ∧
    ∃ sm', applyMsg 10 Sched.stored retryState ⟨7, some (joinOp 1 5 [(1, ["a"])])⟩ = .ok sm' ∧
      sm'.result.get? 7 = some [] :=
  ⟨rfl, rfl, retryState, rfl, rfl⟩

/-! ## Duplicates and the configuration sequence -/

/-- C6.  For a command whose client has an entry in `request` with `Seq` at most that
entry, the apply step completes and leaves `configs` unchanged, whatever the type. -/
theorem duplicate_leaves_configs (NShards : Nat) (sch : Sched) (sm : ShardMaster)
    (index : Int) (op : Op) (lastSeq : Int)
    (hr : sm.request.get? op.Cid = some lastSeq) (hs : op.Seq ≤ lastSeq) :
    ∃ sm', applyMsg NShards sch sm ⟨index, some op⟩ = .ok sm' ∧ sm'.configs = sm.configs := by
  have hd : checkDuplicate sm op.Cid op.Seq = true := by
    unfold checkDuplicate
    rw [hr]
    exact decide_eq_true hs
  exact ⟨sm, applyMsg_duplicate NShards sch sm ⟨index, some op⟩ hd, rfl⟩

/-- Witness of `duplicate_leaves_configs`: a `MOVE` of client 1 with sequence number 4 on
`retryState`, whose `request[1]` is 5. -/
theorem duplicate_leaves_configs_witness :
    retryState.request.get? (moveOp 1 4 3 9).Cid = some 5 ∧ (moveOp 1 4 3 9).Seq ≤ 5 ∧
    ∃ sm', applyMsg 10 Sched.stored retryState ⟨8, some (moveOp 1 4 3 9)⟩ = .ok sm' ∧
      sm'.configs = retryState.configs :=
  ⟨rfl, by decide,
    duplicate_leaves_configs 10 Sched.stored retryState 8 (moveOp 1 4 3 9) 5 rfl (by decide)⟩

/-! ## The dedup table -/

/-- C7, as the code has it.  An apply step that completes leaves `request` as it was,
for every command; the entry `request[Cid]` is written by `appendLog`, on the replica
whose handler receives the signal, and is set to `Seq` whatever it held. -/
theorem request_written_by_appendLog (NShards : Nat) (sch : Sched)
    (sm sm' sm'' : ShardMaster) (msg : ApplyMsg) (op : Op) (index : Int) (b : Bool)
    (h : applyMsg NShards sch sm msg = .ok sm')
    (hr : appendLogReceive sm' op index = some (sm'', b)) :
    sm'.request = sm.request ∧ sm''.request.get? op.Cid = some op.Seq := by
  refine ⟨applyMsg_request h, ?_⟩
  unfold appendLogReceive at hr
  split at hr
  · cases hr
    exact GoMap.get?_set_self _ _ _
  · cases hr

/-- Witness of `request_written_by_appendLog`: on `retryState`, whose `request[1]` is 5 and
which has a waiter for index 7, the `QUERY` of client 1 with sequence number 9 is applied
at index 7 and its handler receives the signal: `request[1]` is 5 after the apply step and
9 after the handler. -/
theorem request_written_by_appendLog_witness :
    applyMsg 10 Sched.stored retryState ⟨7, some (queryOp 1 9 0)⟩ =
      .ok { retryState with result := [(7, [0])] } ∧
    appendLogReceive { retryState with result := [(7, [0])] } (queryOp 1 9 0) 7 =
      some ({ retryState with result := [(7, [])], request := [(1, 9)] }, true) ∧
    ({ retryState with result := [(7, [0])] } : ShardMaster).request = retryState.request ∧
    GoMap.get? ({ retryState with result := [(7, [])], request := [(1, 9)] } : ShardMaster).request
      (queryOp 1 9 0).Cid = some (queryOp 1 9 0).Seq :=
  ⟨rfl, rfl,
    request_written_by_appendLog 10 Sched.stored retryState
      { retryState with result := [(7, [0])] }
      { retryState with result := [(7, [])], request := [(1, 9)] }
      ⟨7, some (queryOp 1 9 0)⟩ (queryOp 1 9 0) 7 true rfl rfl⟩

/-- C7 fails as stated: the first command of client 1 (sequence number 5) is applied on
the initial state, where `request` has no entry for the client; after the apply step
`request` still has no entry for the client, instead of 5. -/
theorem apply_does_not_record_sequence :
    (StartServer 10).request.get? 1 = none ∧
    ∃ sm', applyMsg 10 Sched.stored (StartServer 10) ⟨1, some (joinOp 1 5 [(1, ["a"])])⟩ =
        .ok sm' ∧
      sm'.configs.length = 2 ∧ sm'.request.get? 1 = none ∧ sm'.request.get? 1 ≠ some 5 :=
  ⟨rfl, _, rfl, rfl, rfl, by decide⟩

/-! ## Retransmission -/

/-- C8, as the code has it.  When the same `JOIN`, `LEAVE` or `MOVE`, not yet a
duplicate, is committed at `index` and at `index + 1` and both apply steps complete, `configs`
grows by two, with or without a waiter registered: the apply loop does not record the
sequence number, so the second commit is applied again. -/
theorem retransmission_applied_twice (NShards : Nat) (sch₁ sch₂ : Sched)
    (sm sm' : ShardMaster) (index : Int) (op : Op)
    (ht : op.Typ = JOIN ∨ op.Typ = LEAVE ∨ op.Typ = MOVE)
    (hd : checkDuplicate sm op.Cid op.Seq = false)
    (h : runServer NShards sm [(sch₁, ⟨index, some op⟩), (sch₂, ⟨index + 1, some op⟩)] =
      .ok sm') :
    sm'.configs.length = sm.configs.length + 2 := by
  unfold runServer at h
  split at h
  · cases h
  · rename_i sm₁ h₁
    unfold runServer at h
    split at h
    · cases h
    · rename_i sm₂ h₂
      unfold runServer at h
      cases h
      obtain ⟨c₁, hc₁⟩ := applyMsg_append h₁ hd ht
      have hd₂ : checkDuplicate sm₁ op.Cid op.Seq = false := by
        unfold checkDuplicate at hd ⊢
        rw [applyMsg_request h₁]
        exact hd
      obtain ⟨c₂, hc₂⟩ := applyMsg_append h₂ hd₂ ht
      rw [hc₂, hc₁]
      simp

/-- Witness of `retransmission_applied_twice`: `Join({1: [a]})` of client 1 with sequence
number 5, committed at indices 1 and 2 on the initial state. -/
theorem retransmission_applied_twice_witness :
    checkDuplicate (StartServer 10) (joinOp 1 5 [(1, ["a"])]).Cid (joinOp 1 5 [(1, ["a"])]).Seq =
      false ∧
    ∃ sm', runServer 10 (StartServer 10)
        [(Sched.stored, ⟨1, some (joinOp 1 5 [(1, ["a"])])⟩),
         (Sched.stored, ⟨1 + 1, some (joinOp 1 5 [(1, ["a"])])⟩)] = .ok sm' ∧
      sm'.configs.length = (StartServer 10).configs.length + 2 :=
  ⟨rfl, _, rfl,
    retransmission_applied_twice 10 Sched.stored Sched.stored (StartServer 10) _ 1
      (joinOp 1 5 [(1, ["a"])]) (Or.inl rfl) rfl rfl⟩

/-- C8 fails as stated: `Move(0, 1)` of client 1 with sequence number 5, not a duplicate
on the initial state, is committed at indices 1 and 2 with no waiter registered; `configs`
grows from one entry to three. -/
theorem retransmission_two_mutations :
    checkDuplicate (StartServer 10) (moveOp 1 5 0 1).Cid (moveOp 1 5 0 1).Seq = false ∧
    (StartServer 10).result.get? 1 = none ∧ (StartServer 10).result.get? 2 = none ∧
    (StartServer 10).configs.length = 1 ∧
    ∃ sm', runServer 10 (StartServer 10)
        [(Sched.stored, ⟨1, some (moveOp 1 5 0 1)⟩),
         (Sched.stored, ⟨2, some (moveOp 1 5 0 1)⟩)] = .ok sm' ∧
      sm'.configs.length = 3 :=
  ⟨rfl, rfl, rfl, rfl, _, rfl, rfl⟩

/-! ## Version numbers -/

theorem Numbered.append {configs : List Config} {oldConfig config : Config}
    (hn : Numbered configs) (hold : configs.getLast? = some oldConfig)
    (hnum : config.Num = oldConfig.Num + 1) : Numbered (configs ++ [config]) := by
  intro i c hi
  have hne : configs ≠ [] := by
    intro hnil
    rw [hnil] at hold
    cases hold
  have hpos : 0 < configs.length := List.length_pos.mpr hne
  rcases Nat.lt_or_ge i configs.length with hlt | hge
  · rw [List.getElem?_append_left hlt] at hi
    exact hn i c hi
  · rw [List.getElem?_append_right hge] at hi
    have hlast : configs[configs.length - 1]? = some oldConfig := by
      rw [← hold, List.getLast?_eq_getElem?]
    have hold_num := hn _ _ hlast
    rcases Nat.eq_zero_or_pos (i - configs.length) with hz | hp
    · rw [hz] at hi
      simp only [List.getElem?_cons_zero, Option.some.injEq] at hi
      subst hi
      rw [hnum, hold_num]
      omega
    · obtain ⟨k, hk⟩ := Nat.exists_eq_succ_of_ne_zero (Nat.pos_iff_ne_zero.mp hp)
      rw [hk] at hi
      simp at hi

theorem appendLogRegister_configs (sm : ShardMaster) (index : Int) (isLeader : Bool) :
    (appendLogRegister sm index isLeader).configs = sm.configs := by
  unfold appendLogRegister
  split <;> rfl

theorem appendLogReceive_configs {sm sm' : ShardMaster} {op : Op} {index : Int} {b : Bool}
    (h : appendLogReceive sm op index = some (sm', b)) : sm'.configs = sm.configs := by
  unfold appendLogReceive at h
  split at h
  · cases h
    rfl
  · cases h

/-- C9.  In every state reachable from `StartServer`'s state by apply steps that complete
(and by the steps of handlers), `configs` is non-empty and `configs[i].Num = i` for every
index `i` of `configs`. -/
theorem monotonic_versions (NShards : Nat) (sm : ShardMaster) (hr : Reachable NShards sm) :
    sm.configs ≠ [] ∧
    ∀ (i : Nat) (c : Config), sm.configs[i]? = some c → c.Num = (i : Int) := by
  induction hr with
  | start =>
    refine ⟨by simp [StartServer], ?_⟩
    intro i c hi
    cases i with
    | zero =>
      simp only [StartServer, List.getElem?_cons_zero, Option.some.injEq] at hi
      subst hi
      rfl
    | succ k => simp [StartServer] at hi
  | apply sch msg _ _ hstep ih =>
    rcases applyMsg_configs hstep with hsame | ⟨oldConfig, config, hold, hnum, happ⟩
    · rw [hsame]
      exact ih
    · rw [happ]
      exact ⟨by simp, Numbered.append ih.2 hold hnum⟩
  | register index isLeader _ ih =>
    rw [appendLogRegister_configs]
    exact ih
  | receive op index b _ hrecv ih =>
    rw [appendLogReceive_configs hrecv]
    exact ih

/-- Witness of `monotonic_versions`: the state after `Join({1: [a]})` is applied to the
initial state with 10 shards. -/
theorem monotonic_versions_witness :
    Reachable 10
      { request := [], result := [],
        configs := [{ Num := 0, Shards := List.replicate 10 0, Groups := [] },
                    { Num := 1, Shards := List.replicate 10 1, Groups := [(1, ["a"])] }] } ∧
    (({ request := [], result := [],
        configs := [{ Num := 0, Shards := List.replicate 10 0, Groups := [] },
                    { Num := 1, Shards := List.replicate 10 1, Groups := [(1, ["a"])] }] } :
        ShardMaster).configs ≠ [] ∧
      ∀ (i : Nat) (c : Config),
        ({ request := [], result := [],
           configs := [{ Num := 0, Shards := List.replicate 10 0, Groups := [] },
                       { Num := 1, Shards := List.replicate 10 1, Groups := [(1, ["a"])] }] } :
          ShardMaster).configs[i]? = some c → c.Num = (i : Int)) :=
  ⟨Reachable.apply Sched.stored ⟨1, some (joinOp 1 1 [(1, ["a"])])⟩ Reachable.start
      stored_valid rfl,
    monotonic_versions 10 _
      (Reachable.apply Sched.stored ⟨1, some (joinOp 1 1 [(1, ["a"])])⟩ Reachable.start
        stored_valid rfl)⟩

/-! ## `Query` -/

/-- C10.  On a non-empty `configs`, a `Query` whose `appendLog` succeeded replies with
`configs[Num]` when `0 ≤ Num < len(configs)` and with the last configuration when
`Num < 0` or `Num ≥ len(configs)`; in both cases it completes, so no index is out of
range. -/
theorem query_selects_version (sm : ShardMaster) (num : Int) (reply : QueryReply)
    (hne : sm.configs ≠ []) :
    (0 ≤ num ∧ num < (sm.configs.length : Int) →
      ∃ c, sm.configs[num.toNat]? = some c ∧
        Query sm num true reply = .ok { reply with Config := c, WrongLeader := false }) ∧
    (num < 0 ∨ (sm.configs.length : Int) ≤ num →
      ∃ c, sm.configs.getLast? = some c ∧
        Query sm num true reply = .ok { reply with Config := c, WrongLeader := false }) := by
  have hpos : 0 < sm.configs.length := List.length_pos.mpr hne
  constructor
  · rintro ⟨h0, hlt⟩
    have hidx : num.toNat < sm.configs.length := by omega
    refine ⟨sm.configs[num.toNat], List.getElem?_eq_getElem hidx, ?_⟩
    have hcond : ¬ (num < 0 ∨ num ≥ (sm.configs.length : Int)) := by omega
    unfold Query
    simp only [Bool.not_true, Bool.false_eq_true, if_false, hcond]
    unfold indexConfig
    rw [if_pos h0, List.getElem?_eq_getElem hidx]
  · intro hout
    have hidx : sm.configs.length - 1 < sm.configs.length := by omega
    have hto : ((sm.configs.length : Int) - 1).toNat = sm.configs.length - 1 := by omega
    have hcond : num < 0 ∨ num ≥ (sm.configs.length : Int) := by omega
    refine ⟨sm.configs[sm.configs.length - 1], ?_, ?_⟩
    · rw [List.getLast?_eq_getElem?, List.getElem?_eq_getElem hidx]
    · unfold Query
      simp only [Bool.not_true, Bool.false_eq_true, if_false, hcond, if_true]
      unfold indexConfig
      have h0 : (0 : Int) ≤ (sm.configs.length : Int) - 1 := by omega
      rw [if_pos h0, hto, List.getElem?_eq_getElem hidx]

/-- Witness of `query_selects_version`: the five configurations of `scenarioConfigs`, read
with `Num = 1` (inside the range, not the last entry), with `Num = 7` (beyond the range)
and with `Num = -2`; the replies carry `configs[1]`, `configs[4]` and `configs[4]`. -/
theorem query_selects_version_witness :
    (∃ c, scenarioConfigs[(1 : Int).toNat]? = some c ∧
      Query { request := [], result := [], configs := scenarioConfigs } 1 true
          ⟨true, "", initialConfig 10⟩ =
        .ok { (⟨true, "", initialConfig 10⟩ : QueryReply) with
              Config := c, WrongLeader := false }) ∧
    (∃ c, scenarioConfigs.getLast? = some c ∧
      Query { request := [], result := [], configs := scenarioConfigs } 7 true
          ⟨true, "", initialConfig 10⟩ =
        .ok { (⟨true, "", initialConfig 10⟩ : QueryReply) with
              Config := c, WrongLeader := false }) ∧
    (∃ c, scenarioConfigs.getLast? = some c ∧
      Query { request := [], result := [], configs := scenarioConfigs } (-2) true
          ⟨true, "", initialConfig 10⟩ =
        .ok { (⟨true, "", initialConfig 10⟩ : QueryReply) with
              Config := c, WrongLeader := false }) ∧
    scenarioConfigs[(1 : Int).toNat]? =
      some { Num := 1, Shards := List.replicate 10 100, Groups := [(100, ["addrA"])] } ∧
    scenarioConfigs.getLast? =
      some { Num := 4, Shards := List.replicate 10 101, Groups := [(101, ["addrB"])] } ∧
    Query { request := [], result := [], configs := scenarioConfigs } 1 true
        ⟨true, "", initialConfig 10⟩ =
      .ok ⟨false, "",
        { Num := 1, Shards := List.replicate 10 100, Groups := [(100, ["addrA"])] }⟩ ∧
    Query { request := [], result := [], configs := scenarioConfigs } 7 true
        ⟨true, "", initialConfig 10⟩ =
      .ok ⟨false, "",
        { Num := 4, Shards := List.replicate 10 101, Groups := [(101, ["addrB"])] }⟩ ∧
    Query { request := [], result := [], configs := scenarioConfigs } (-2) true
        ⟨true, "", initialConfig 10⟩ =
      .ok ⟨false, "",
        { Num := 4, Shards := List.replicate 10 101, Groups := [(101, ["addrB"])] }⟩ :=
  ⟨(query_selects_version { request := [], result := [], configs := scenarioConfigs } 1
      ⟨true, "", initialConfig 10⟩ (by decide)).1 ⟨by decide, by decide⟩,
    (query_selects_version { request := [], result := [], configs := scenarioConfigs } 7
      ⟨true, "", initialConfig 10⟩ (by decide)).2 (Or.inr (by decide)),
    (query_selects_version { request := [], result := [], configs := scenarioConfigs } (-2)
      ⟨true, "", initialConfig 10⟩ (by decide)).2 (Or.inl (by decide)),
    rfl, rfl, rfl, rfl, rfl⟩

/-! ## Maps: reads after writes -/

theorem GoMap.get?_rebind_other {ν : Type} (m : GoMap Int ν) (k k' : Int) (v : ν)
    (hk : k' ≠ k) :
    GoMap.get? (m.map (fun p => if p.1 = k then (k, v) else p)) k' = GoMap.get? m k' := by
  induction m with
  | nil => rfl
  | cons p rest ih =>
    obtain ⟨a, b⟩ := p
    rw [List.map_cons, GoMap.get?_cons]
    by_cases ha : a = k
    · rw [if_pos ha, GoMap.get?_cons, if_neg (fun h => hk h.symm), ih,
        if_neg (fun h => hk (h.symm.trans ha))]
    · rw [if_neg ha, GoMap.get?_cons, ih]

theorem GoMap.get?_append {ν : Type} (m m' : GoMap Int ν) (k : Int) :
    GoMap.get? (m ++ m') k = match GoMap.get? m k with
      | some v => some v
      | none => GoMap.get? m' k := by
  induction m with
  | nil => rfl
  | cons p rest ih =>
    obtain ⟨a, b⟩ := p
    rw [List.cons_append, GoMap.get?_cons, GoMap.get?_cons]
    by_cases ha : a = k
    · rw [if_pos ha, if_pos ha]
    · rw [if_neg ha, if_neg ha, ih]

theorem GoMap.get?_set_other {ν : Type} (m : GoMap Int ν) (k k' : Int) (v : ν)
    (hk : k' ≠ k) : (m.set k v).get? k' = m.get? k' := by
  unfold GoMap.set
  split
  · exact GoMap.get?_rebind_other m k k' v hk
  · rw [GoMap.get?_append]
    cases hm : GoMap.get? m k' with
    | some w => rfl
    | none =>
      show GoMap.get? [(k, v)] k' = none
      rw [GoMap.get?_cons, if_neg (fun h => hk h.symm)]
      rfl

theorem GoMap.get?_set {ν : Type} (m : GoMap Int ν) (k k' : Int) (v : ν) :
    (m.set k v).get? k' = if k' = k then some v else m.get? k' := by
  by_cases hk : k' = k
  · rw [if_pos hk, hk]
    exact GoMap.get?_set_self m k v
  · rw [if_neg hk]
    exact GoMap.get?_set_other m k k' v hk

theorem GoMap.get?_delete {ν : Type} (m : GoMap Int ν) (k k' : Int) :
    (m.delete k).get? k' = if k' = k then none else m.get? k' := by
  unfold GoMap.delete
  induction m with
  | nil =>
    by_cases hk : k' = k
    · rw [if_pos hk]
      rfl
    · rw [if_neg hk]
      rfl
  | cons p rest ih =>
    obtain ⟨a, b⟩ := p
    rw [List.filter_cons]
    by_cases ha : a = k
    · have hb : ((a, b).1 != k) = false := by simp [ha]
      rw [hb]
      simp only [Bool.false_eq_true, if_false]
      rw [ih, GoMap.get?_cons]
      by_cases hk : k' = k
      · rw [if_pos hk, if_pos hk]
      · rw [if_neg hk, if_neg hk, if_neg (fun h => hk (h.symm.trans ha))]
    · have hb : ((a, b).1 != k) = true := by simp [ha]
      rw [hb]
      simp only [if_true]
      rw [GoMap.get?_cons, GoMap.get?_cons, ih]
      by_cases hak : a = k'
      · rw [if_pos hak, if_pos hak, if_neg (fun h => ha (hak.trans h))]
      · rw [if_neg hak, if_neg hak]

theorem mem_distinct (l : List Int) (a : Int) : a ∈ distinct l ↔ a ∈ l := by
  induction l with
  | nil => simp [distinct]
  | cons b rest ih =>
    unfold distinct
    by_cases hab : a = b
    · simp [hab]
    · simp [List.mem_filter, ih, hab]

theorem distinct_nodup (l : List Int) : (distinct l).Nodup := by
  induction l with
  | nil => simp [distinct]
  | cons b rest ih =>
    unfold distinct
    rw [List.nodup_cons]
    constructor
    · simp [List.mem_filter]
    · exact ih.filter _

theorem GoMap.mem_keys {ν : Type} (m : GoMap Int ν) (k : Int) :
    k ∈ m.keys ↔ (m.get? k).isSome = true := by
  unfold GoMap.keys
  rw [mem_distinct]
  induction m with
  | nil => simp [GoMap.get?_nil]
  | cons p rest ih =>
    obtain ⟨a, b⟩ := p
    rw [List.map_cons, List.mem_cons, GoMap.get?_cons, ih]
    by_cases ha : a = k
    · simp [ha]
    · rw [if_neg ha]
      constructor
      · rintro (h | h)
        · exact absurd h.symm ha
        · exact h
      · exact Or.inr

theorem GoMap.keys_nodup {ν : Type} (m : GoMap Int ν) : m.keys.Nodup :=
  distinct_nodup _

theorem GoMap.not_mem_keys {ν : Type} (m : GoMap Int ν) (k : Int) :
    k ∉ m.keys ↔ m.get? k = none := by
  rw [GoMap.mem_keys]
  cases m.get? k <;> simp

/-- Reading a map built by storing, for the keys of `l` bound in `src`, the value of
`src`; `f` is the body of the loop. -/
theorem foldl_set_get? {ν : Type} (src : GoMap Int ν) (f : GoMap Int ν → Int → GoMap Int ν)
    (hf : ∀ acc a, f acc a = match src.get? a with
      | some v => acc.set a v
      | none => acc)
    (l : List Int) (acc : GoMap Int ν) (k : Int) :
    GoMap.get? (l.foldl f acc) k =
      if k ∈ l then (match src.get? k with
        | some v => some v
        | none => acc.get? k) else acc.get? k := by
  induction l generalizing acc with
  | nil => simp
  | cons a rest ih =>
    rw [List.foldl_cons, ih, hf]
    by_cases hka : k = a
    · subst hka
      cases hs : GoMap.get? src k with
      | none => simp
      | some v => simp [GoMap.get?_set_self]
    · have hstep : GoMap.get? (match src.get? a with
          | some v => acc.set a v
          | none => acc) k = acc.get? k := by
        cases GoMap.get? src a with
        | none => rfl
        | some v => exact GoMap.get?_set_other acc a k v hka
      rw [hstep]
      simp [hka]

theorem copyGroups_get? (enum : List Int → List Int) (he : IsEnum enum)
    (old : GoMap Int (List String)) (k : Int) :
    (copyGroups enum old).get? k = old.get? k := by
  unfold copyGroups
  rw [foldl_set_get? old _ (fun acc a => by cases GoMap.get? old a <;> rfl)]
  by_cases hk : k ∈ enum old.keys
  · rw [if_pos hk]
    cases GoMap.get? old k <;> rfl
  · rw [if_neg hk]
    have hk' : k ∉ old.keys := fun h => hk ((he _).mem_iff.mpr h)
    rw [(GoMap.not_mem_keys old k).mp hk']
    rfl

theorem joinGroups_get? (enum : List Int → List Int) (he : IsEnum enum)
    (servers groups : GoMap Int (List String)) (k : Int) :
    (joinGroups enum servers groups).get? k =
      match servers.get? k with
      | some v => some v
      | none => groups.get? k := by
  unfold joinGroups
  rw [foldl_set_get? servers _ (fun acc a => by cases GoMap.get? servers a <;> rfl)]
  by_cases hk : k ∈ enum servers.keys
  · rw [if_pos hk]
    cases GoMap.get? servers k <;> rfl
  · rw [if_neg hk]
    have hk' : k ∉ servers.keys := fun h => hk ((he _).mem_iff.mpr h)
    rw [(GoMap.not_mem_keys servers k).mp hk']

theorem leaveGroups_get? (gids : List Int) (groups : GoMap Int (List String)) (k : Int) :
    (leaveGroups gids groups).get? k = if k ∈ gids then none else groups.get? k := by
  unfold leaveGroups
  induction gids generalizing groups with
  | nil => simp
  | cons g rest ih =>
    rw [List.foldl_cons, ih, GoMap.get?_delete]
    by_cases hr : k ∈ rest
    · simp [hr]
    · by_cases hg : k = g
      · simp [hg]
      · simp [hr, hg]

/-! ## `newConfig` copies the shard array -/

theorem copyShards_length (dst : List Int) (i : Nat) (src : List Int) :
    (copyShards dst i src).length = dst.length := by
  induction src generalizing dst i with
  | nil => rfl
  | cons v rest ih =>
    unfold copyShards
    rw [ih, List.length_set]

theorem copyShards_getElem? (dst : List Int) (i : Nat) (src : List Int)
    (h : i + src.length ≤ dst.length) (j : Nat) :
    (copyShards dst i src)[j]? =
      if i ≤ j ∧ j < i + src.length then src[j - i]? else dst[j]? := by
  induction src generalizing dst i with
  | nil =>
    unfold copyShards
    have : ¬ (i ≤ j ∧ j < i + ([] : List Int).length) := by
      simp only [List.length_nil]
      omega
    rw [if_neg this]
  | cons v rest ih =>
    unfold copyShards
    simp only [List.length_cons] at h ⊢
    rw [ih (dst.set i v) (i + 1) (by rw [List.length_set]; omega)]
    by_cases hij : i = j
    · subst hij
      have h1 : ¬ (i + 1 ≤ i ∧ i < i + 1 + rest.length) := by omega
      have h2 : i ≤ i ∧ i < i + (rest.length + 1) := by omega
      rw [if_neg h1, if_pos h2, List.getElem?_set_self (by omega), Nat.sub_self,
        List.getElem?_cons_zero]
    · rw [List.getElem?_set_ne hij]
      by_cases hin : i ≤ j ∧ j < i + (rest.length + 1)
      · have h1 : i + 1 ≤ j ∧ j < i + 1 + rest.length := by omega
        rw [if_pos h1, if_pos hin]
        have : j - i = (j - (i + 1)) + 1 := by omega
        rw [this, List.getElem?_cons_succ]
      · have h1 : ¬ (i + 1 ≤ j ∧ j < i + 1 + rest.length) := by omega
        rw [if_neg h1, if_neg hin]

theorem copyShards_same_length (NShards : Nat) (src : List Int) (h : src.length = NShards) :
    copyShards (List.replicate NShards 0) 0 src = src := by
  apply List.ext_getElem?
  intro j
  rw [copyShards_getElem? _ _ _ (by simp [h])]
  by_cases hj : j < src.length
  · rw [if_pos ⟨Nat.zero_le _, by omega⟩, Nat.sub_zero]
  · rw [if_neg (by omega)]
    rw [List.getElem?_eq_none (by simp; omega), List.getElem?_eq_none (by omega)]

/-! ## The assignment loops of `updateConfig` -/

theorem setIndex_ok (a : List Int) (i : Nat) (v : Int) (h : i < a.length) :
    setIndex a i v = .ok (a.set i v) := by
  unfold setIndex
  rw [if_pos h]

/-- The inner loop, on entries of `neededMove` that are indices of the array: it
completes, consumes the first `n` entries left, and stores `gid` at exactly these. -/
theorem assign_spec (gid : Int) (n : Nat) (rest : List Nat) (shards : List Int)
    (hr : ∀ sid ∈ rest, sid < shards.length) :
    ∃ shards', assign gid n rest shards = .ok (shards', rest.drop n) ∧
      shards'.length = shards.length ∧
      (∀ i, i ∉ rest.take n → shards'[i]? = shards[i]?) ∧
      (∀ i, i ∈ rest.take n → shards'[i]? = some gid) := by
  induction n generalizing rest shards with
  | zero =>
    refine ⟨shards, ?_, rfl, fun _ _ => rfl, ?_⟩
    · unfold assign
      simp
    · intro i hi
      simp at hi
  | succ n ih =>
    cases rest with
    | nil =>
      refine ⟨shards, ?_, rfl, fun _ _ => rfl, ?_⟩
      · unfold assign
        simp
      · intro i hi
        simp at hi
    | cons sid rest =>
      have hsid : sid < shards.length := hr sid (List.mem_cons_self _ _)
      have hr' : ∀ s ∈ rest, s < (shards.set sid gid).length := by
        intro s hs
        rw [List.length_set]
        exact hr s (List.mem_cons_of_mem _ hs)
      obtain ⟨shards', hok, hlen, hout, hin⟩ := ih rest (shards.set sid gid) hr'
      refine ⟨shards', ?_, ?_, ?_, ?_⟩
      · unfold assign
        rw [setIndex_ok _ _ _ hsid]
        simpa using hok
      · rw [hlen, List.length_set]
      · intro i hi
        rw [List.take_succ_cons, List.mem_cons, not_or] at hi
        rw [hout i hi.2, List.getElem?_set_ne (fun h => hi.1 h.symm)]
      · intro i hi
        rw [List.take_succ_cons, List.mem_cons] at hi
        by_cases hmem : i ∈ rest.take n
        · exact hin i hmem
        · rcases hi with hi | hi
          · rw [hout i hmem, hi, List.getElem?_set_self hsid]
          · exact absurd hi hmem

/-- The loop over `candidateGids`, on entries of `neededMove` that are indices of the
array: it completes, consumes a prefix of the entries left, stores a candidate at each
consumed entry and nothing elsewhere. -/
theorem fillCandidates_spec (g2s : GoMap Int (List Nat)) (expected : Nat) (cands : List Int)
    (rest : List Nat) (shards : List Int) (hr : ∀ sid ∈ rest, sid < shards.length) :
    ∃ shards' consumed rest', fillCandidates g2s expected cands rest shards = .ok (shards', rest') ∧
      rest = consumed ++ rest' ∧ shards'.length = shards.length ∧
      (∀ i, i ∉ consumed → shards'[i]? = shards[i]?) ∧
      (∀ i, i ∈ consumed → ∃ g ∈ cands, shards'[i]? = some g) := by
  induction cands generalizing rest shards with
  | nil =>
    refine ⟨shards, [], rest, ?_, rfl, rfl, fun _ _ => rfl, ?_⟩
    · unfold fillCandidates
      rfl
    · intro i hi
      simp at hi
  | cons gid gs ih =>
    have step : ∀ n : Nat, ∃ shards' consumed rest',
        (match assign gid n rest shards with
          | .ok (shards', rest') => fillCandidates g2s expected gs rest' shards'
          | .error f => .error f) = .ok (shards', rest') ∧
        rest = consumed ++ rest' ∧ shards'.length = shards.length ∧
        (∀ i, i ∉ consumed → shards'[i]? = shards[i]?) ∧
        (∀ i, i ∈ consumed → ∃ g ∈ gid :: gs, shards'[i]? = some g) := by
      intro n
      obtain ⟨s₁, hok₁, hlen₁, hout₁, hin₁⟩ := assign_spec gid n rest shards hr
      have hr₁ : ∀ sid ∈ rest.drop n, sid < s₁.length := by
        intro sid hs
        rw [hlen₁]
        exact hr sid (List.mem_of_mem_drop hs)
      obtain ⟨s₂, c₂, r₂, hok₂, hsplit, hlen₂, hout₂, hin₂⟩ := ih (rest.drop n) s₁ hr₁
      refine ⟨s₂, rest.take n ++ c₂, r₂, ?_, ?_, ?_, ?_, ?_⟩
      · rw [hok₁]
        exact hok₂
      · rw [List.append_assoc, ← hsplit, List.take_append_drop]
      · rw [hlen₂, hlen₁]
      · intro i hi
        rw [List.mem_append, not_or] at hi
        rw [hout₂ i hi.2, hout₁ i hi.1]
      · intro i hi
        by_cases hc : i ∈ c₂
        · obtain ⟨g, hg, hgi⟩ := hin₂ i hc
          exact ⟨g, List.mem_cons_of_mem _ hg, hgi⟩
        · have ht : i ∈ rest.take n := by
            rcases List.mem_append.mp hi with h | h
            · exact h
            · exact absurd h hc
          exact ⟨gid, List.mem_cons_self _ _, by rw [hout₂ i hc, hin₁ i ht]⟩
    unfold fillCandidates
    cases hg : GoMap.get? g2s gid with
    | none => exact step expected
    | some sids =>
      by_cases hlt : sids.length < expected
      · simp only [hlt, if_true]
        exact step (expected - sids.length)
      · simp only [hlt, if_false]
        obtain ⟨s₂, c₂, r₂, hok₂, hsplit, hlen₂, hout₂, hin₂⟩ := ih rest shards hr
        refine ⟨s₂, c₂, r₂, hok₂, hsplit, hlen₂, hout₂, ?_⟩
        intro i hi
        obtain ⟨g, hg', hgi⟩ := hin₂ i hi
        exact ⟨g, List.mem_cons_of_mem _ hg', hgi⟩

/-- The round-robin loop, on entries of `neededMove` that are indices of the array and
with `gIndex` at most `len(candidateGids)`: it completes; with no candidate it stores
nothing, otherwise it stores a candidate at every entry left and nothing elsewhere. -/
theorem roundRobin_spec (cands : List Int) (gIndex : Nat) (rest : List Nat)
    (shards : List Int) (hg : gIndex ≤ cands.length)
    (hr : ∀ sid ∈ rest, sid < shards.length) :
    ∃ shards', roundRobin cands gIndex rest shards = .ok shards' ∧
      shards'.length = shards.length ∧
      (cands = [] → shards' = shards) ∧
      (∀ i, i ∉ rest → shards'[i]? = shards[i]?) ∧
      (cands ≠ [] → ∀ i, i ∈ rest → ∃ g ∈ cands, shards'[i]? = some g) := by
  induction rest generalizing gIndex shards with
  | nil =>
    refine ⟨shards, ?_, rfl, fun _ => rfl, fun _ _ => rfl, ?_⟩
    · unfold roundRobin
      rfl
    · intro _ i hi
      simp at hi
  | cons sid rest ih =>
    by_cases hc : cands.length = 0
    · refine ⟨shards, ?_, rfl, fun _ => rfl, fun _ _ => rfl, ?_⟩
      · unfold roundRobin
        simp only [hc, if_true]
      · intro hne
        exact absurd (List.length_eq_zero.mp hc) hne
    · have hsid : sid < shards.length := hr sid (List.mem_cons_self _ _)
      have hlt : (if gIndex = cands.length then 0 else gIndex) < cands.length := by
        split <;> omega
      have hsome : cands[if gIndex = cands.length then 0 else gIndex]? =
          some (cands[if gIndex = cands.length then 0 else gIndex]) :=
        List.getElem?_eq_getElem hlt
      have hr' : ∀ s ∈ rest, s < (shards.set sid
          (cands[if gIndex = cands.length then 0 else gIndex])).length := by
        intro s hs
        rw [List.length_set]
        exact hr s (List.mem_cons_of_mem _ hs)
      obtain ⟨shards', hok, hlen, _, hout, hin⟩ :=
        ih ((if gIndex = cands.length then 0 else gIndex) + 1)
          (shards.set sid (cands[if gIndex = cands.length then 0 else gIndex])) (by omega) hr'
      have hne : cands ≠ [] := fun h => hc (by rw [h]; rfl)
      refine ⟨shards', ?_, ?_, fun h => absurd h hne, ?_, ?_⟩
      · unfold roundRobin
        simp only [hc, if_false, hsome, setIndex_ok _ _ _ hsid]
        exact hok
      · rw [hlen, List.length_set]
      · intro i hi
        rw [List.mem_cons, not_or] at hi
        rw [hout i hi.2, List.getElem?_set_ne (fun h => hi.1 h.symm)]
      · intro _ i hi
        by_cases hmem : i ∈ rest
        · exact hin hne i hmem
        · rcases List.mem_cons.mp hi with hi | hi
          · refine ⟨_, List.getElem_mem hlt, ?_⟩
            rw [hout i hmem, hi, List.getElem?_set_self hsid]
          · exact absurd hi hmem

/-! ## The first two loops of `updateConfig`: `g2s` and `neededMove` -/

theorem mem_idxWhere (p : Int → Bool) (off : Nat) (l : List Int) (i : Nat) :
    i ∈ idxWhere p off l ↔ ∃ j o, i = off + j ∧ l[j]? = some o ∧ p o = true := by
  induction l generalizing off with
  | nil => simp [idxWhere]
  | cons a rest ih =>
    have hX : i ∈ idxWhere p (off + 1) rest ↔
        ∃ j o, i = off + (j + 1) ∧ (a :: rest)[j + 1]? = some o ∧ p o = true := by
      rw [ih]
      constructor
      · rintro ⟨j, o, hi, hj, hp⟩
        exact ⟨j, o, by omega, by rw [List.getElem?_cons_succ]; exact hj, hp⟩
      · rintro ⟨j, o, hi, hj, hp⟩
        exact ⟨j, o, by omega, by rw [List.getElem?_cons_succ] at hj; exact hj, hp⟩
    unfold idxWhere
    constructor
    · intro h
      have hcases : (i = off ∧ p a = true) ∨ i ∈ idxWhere p (off + 1) rest := by
        by_cases hp : p a = true
        · rw [if_pos hp, List.mem_cons] at h
          rcases h with h | h
          · exact Or.inl ⟨h, hp⟩
          · exact Or.inr h
        · rw [if_neg hp] at h
          exact Or.inr h
      rcases hcases with ⟨hi, hp⟩ | hin
      · exact ⟨0, a, by omega, by simp, hp⟩
      · obtain ⟨j, o, hi, hj, hp⟩ := hX.mp hin
        exact ⟨j + 1, o, hi, hj, hp⟩
    · rintro ⟨j, o, hi, hj, hp⟩
      cases j with
      | zero =>
        simp only [List.getElem?_cons_zero, Option.some.injEq] at hj
        subst hj
        rw [if_pos hp, List.mem_cons]
        left
        omega
      | succ j =>
        have hin : i ∈ idxWhere p (off + 1) rest := hX.mpr ⟨j, o, hi, hj, hp⟩
        by_cases hpa : p a = true
        · rw [if_pos hpa]
          exact List.mem_cons_of_mem _ hin
        · rw [if_neg hpa]
          exact hin

theorem idxWhere_nodup (p : Int → Bool) (off : Nat) (l : List Int) :
    (idxWhere p off l).Nodup := by
  induction l generalizing off with
  | nil => simp [idxWhere]
  | cons a rest ih =>
    unfold idxWhere
    by_cases hp : p a = true
    · rw [if_pos hp, List.nodup_cons]
      refine ⟨?_, ih (off + 1)⟩
      rw [mem_idxWhere]
      rintro ⟨j, o, hi, _, _⟩
      omega
    · rw [if_neg hp]
      exact ih (off + 1)

theorem mem_ownedIdx (shards : List Int) (gid : Int) (i : Nat) :
    i ∈ ownedIdx shards gid ↔ shards[i]? = some gid := by
  unfold ownedIdx
  rw [mem_idxWhere]
  constructor
  · rintro ⟨j, o, hi, hj, hp⟩
    have : o = gid := of_decide_eq_true hp
    subst this
    have : i = j := by omega
    rw [this]
    exact hj
  · intro h
    exact ⟨i, gid, by omega, h, decide_eq_true rfl⟩

theorem mem_orphanIdx (groups : GoMap Int (List String)) (shards : List Int) (i : Nat) :
    i ∈ orphanIdx groups shards ↔ ∃ o, shards[i]? = some o ∧ groups.contains o = false := by
  unfold orphanIdx
  rw [mem_idxWhere]
  constructor
  · rintro ⟨j, o, hi, hj, hp⟩
    have : i = j := by omega
    rw [this]
    exact ⟨o, hj, by simpa using hp⟩
  · rintro ⟨o, h, hc⟩
    exact ⟨i, o, by omega, h, by simp [hc]⟩

theorem ownedIdx_nodup (shards : List Int) (gid : Int) : (ownedIdx shards gid).Nodup :=
  idxWhere_nodup _ _ _

theorem orphanIdx_nodup (groups : GoMap Int (List String)) (shards : List Int) :
    (orphanIdx groups shards).Nodup :=
  idxWhere_nodup _ _ _

theorem idxWhere_cons (p : Int → Bool) (off : Nat) (a : Int) (rest : List Int) :
    idxWhere p off (a :: rest) =
      if p a then off :: idxWhere p (off + 1) rest else idxWhere p (off + 1) rest := rfl

/-- The result of the loop over `config.Shards`: `neededMove` receives the shards whose
owner is not a key of `groups`; the entry of a key `g` of `groups` in `g2s` receives the
shards owned by `g`, and is not created when there is none. -/
theorem groupShards_spec (groups : GoMap Int (List String)) (off : Nat) (l : List Int)
    (g2s : GoMap Int (List Nat)) (nm : List Nat) :
    (groupShards groups off l (g2s, nm)).2 =
      nm ++ idxWhere (fun o => !groups.contains o) off l ∧
    ∀ g, (groupShards groups off l (g2s, nm)).1.get? g =
      if groups.contains g = true ∧ idxWhere (fun o => decide (o = g)) off l ≠ [] then
        some ((g2s.get? g).getD [] ++ idxWhere (fun o => decide (o = g)) off l)
      else g2s.get? g := by
  induction l generalizing off g2s nm with
  | nil =>
    unfold groupShards
    simp [idxWhere]
  | cons a rest ih =>
    have hne : ∀ g, g ≠ a → idxWhere (fun o => decide (o = g)) off (a :: rest) =
        idxWhere (fun o => decide (o = g)) (off + 1) rest := by
      intro g hg
      rw [idxWhere_cons, if_neg]
      simpa using fun h : a = g => hg h.symm
    have heq : idxWhere (fun o => decide (o = a)) off (a :: rest) =
        off :: idxWhere (fun o => decide (o = a)) (off + 1) rest := by
      rw [idxWhere_cons, if_pos]
      simp
    unfold groupShards
    by_cases hc : groups.contains a = true
    · rw [if_pos hc]
      obtain ⟨h2, h1⟩ := ih (off + 1) (g2s.set a ((g2s.get? a).getD [] ++ [off])) nm
      constructor
      · rw [h2, idxWhere_cons, if_neg]
        simp [hc]
      · intro g
        rw [h1 g, GoMap.get?_set]
        by_cases hg : g = a
        · subst hg
          rw [heq]
          by_cases ht : idxWhere (fun o => decide (o = g)) (off + 1) rest = []
          · simp [hc, ht]
          · simp [hc, ht]
        · rw [hne g hg, if_neg hg]
    · rw [if_neg hc]
      obtain ⟨h2, h1⟩ := ih (off + 1) g2s (nm ++ [off])
      constructor
      · rw [h2, idxWhere_cons, if_pos]
        · simp
        · simp [hc]
      · intro g
        rw [h1 g]
        by_cases hg : g = a
        · subst hg
          simp [hc]
        · rw [hne g hg]

theorem g2sOf_get? (config : Config) (g : Int) :
    (g2sOf config).get? g =
      if config.Groups.contains g = true ∧ ownedIdx config.Shards g ≠ [] then
        some (ownedIdx config.Shards g)
      else none := by
  unfold g2sOf ownedIdx
  rw [(groupShards_spec config.Groups 0 config.Shards [] []).2 g]
  simp [GoMap.get?_nil]

theorem expectedLoad_pos (nShards nGids : Nat) : 0 < expectedLoad nShards nGids := by
  unfold expectedLoad
  split
  · exact Nat.one_pos
  · exact Nat.pos_of_ne_zero (by assumption)

theorem neededMoveOf_eq (sch : Sched) (config : Config) :
    neededMoveOf sch config =
      orphanIdx config.Groups config.Shards ++
        (sch.rangeG2s (g2sOf config).keys).flatMap
          (fun g => (((g2sOf config).get? g).getD []).drop (expectedOf config)) := by
  unfold neededMoveOf
  rw [appendExcess_eq, (groupShards_spec config.Groups 0 config.Shards [] []).1]
  rfl

/-- The shards of `neededMove`: those whose owner is not a key of `Groups`, and those of
a key `g` of `Groups` beyond the first `expected` shards that `g` owns. -/
theorem mem_neededMoveOf (sch : Sched) (hv : sch.Valid) (config : Config) (i : Nat) :
    i ∈ neededMoveOf sch config ↔
      (∃ o, config.Shards[i]? = some o ∧ config.Groups.contains o = false) ∨
      ∃ g, config.Groups.contains g = true ∧
        i ∈ (ownedIdx config.Shards g).drop (expectedOf config) := by
  rw [neededMoveOf_eq, List.mem_append, mem_orphanIdx, List.mem_flatMap]
  constructor
  · rintro (h | ⟨g, _, hi⟩)
    · exact Or.inl h
    · right
      rw [g2sOf_get?] at hi
      by_cases hc : config.Groups.contains g = true ∧ ownedIdx config.Shards g ≠ []
      · rw [if_pos hc] at hi
        exact ⟨g, hc.1, hi⟩
      · rw [if_neg hc] at hi
        simp at hi
  · rintro (h | ⟨g, hc, hi⟩)
    · exact Or.inl h
    · right
      have hne : ownedIdx config.Shards g ≠ [] := by
        intro h
        rw [h] at hi
        simp at hi
      have hget : (g2sOf config).get? g = some (ownedIdx config.Shards g) := by
        rw [g2sOf_get?, if_pos ⟨hc, hne⟩]
      refine ⟨g, ?_, ?_⟩
      · rw [(hv.2.2.2 _).mem_iff, GoMap.mem_keys, hget]
        rfl
      · rw [hget]
        exact hi

theorem neededMoveOf_lt (sch : Sched) (hv : sch.Valid) (config : Config) (i : Nat)
    (hi : i ∈ neededMoveOf sch config) : i < config.Shards.length := by
  rcases (mem_neededMoveOf sch hv config i).mp hi with ⟨o, ho, _⟩ | ⟨g, _, hg⟩
  · exact (List.getElem?_eq_some_iff.mp ho).1
  · have := (mem_ownedIdx config.Shards g i).mp (List.mem_of_mem_drop hg)
    exact (List.getElem?_eq_some_iff.mp this).1

theorem neededMoveOf_nodup (sch : Sched) (hv : sch.Valid) (config : Config) :
    (neededMoveOf sch config).Nodup := by
  have hexc : ∀ g i, i ∈ (((g2sOf config).get? g).getD []).drop (expectedOf config) →
      config.Groups.contains g = true ∧ config.Shards[i]? = some g := by
    intro g i hi
    rw [g2sOf_get?] at hi
    by_cases hc : config.Groups.contains g = true ∧ ownedIdx config.Shards g ≠ []
    · rw [if_pos hc] at hi
      exact ⟨hc.1, (mem_ownedIdx _ _ _).mp (List.mem_of_mem_drop hi)⟩
    · rw [if_neg hc] at hi
      simp at hi
  rw [neededMoveOf_eq]
  apply List.Nodup.append (orphanIdx_nodup _ _)
  · rw [List.nodup_flatMap]
    constructor
    · intro g _
      rw [g2sOf_get?]
      split
      · exact (ownedIdx_nodup _ _).sublist (List.drop_sublist _ _)
      · simp
    · have hnd : (sch.rangeG2s (g2sOf config).keys).Nodup :=
        (hv.2.2.2 _).nodup_iff.mpr (GoMap.keys_nodup _)
      refine List.Pairwise.imp ?_ hnd
      intro a b hab
      show List.Disjoint _ _
      intro i hia hib
      have h1 := (hexc a i hia).2
      have h2 := (hexc b i hib).2
      rw [h1] at h2
      exact hab (Option.some.inj h2)
  · intro i hio hif
    obtain ⟨o, ho, hco⟩ := (mem_orphanIdx _ _ _).mp hio
    obtain ⟨g, _, hig⟩ := List.mem_flatMap.mp hif
    obtain ⟨hcg, hg⟩ := hexc g i hig
    rw [ho] at hg
    rw [Option.some.inj hg, hcg] at hco
    cases hco

/-- The gids of `candidateGids`: the keys of `Groups` that own fewer than `expected`
shards. -/
theorem mem_candidatesOf (sch : Sched) (hv : sch.Valid) (config : Config) (g : Int) :
    g ∈ candidatesOf sch config ↔
      g ∈ config.Groups.keys ∧ (ownedIdx config.Shards g).length < expectedOf config := by
  unfold candidatesOf candidates
  rw [List.mem_filter, (hv.2.2.1 _).mem_iff]
  apply and_congr_right
  intro hk
  have hc : config.Groups.contains g = true := (GoMap.mem_keys _ _).mp hk
  rw [g2sOf_get?]
  by_cases hne : ownedIdx config.Shards g = []
  · have hpos : 0 < expectedOf config := expectedLoad_pos _ _
    simp [hne, hpos]
  · simp [hc, hne]

theorem candidatesOf_nodup (sch : Sched) (hv : sch.Valid) (config : Config) :
    (candidatesOf sch config).Nodup := by
  unfold candidatesOf candidates
  exact ((hv.2.2.1 _).nodup_iff.mpr (GoMap.keys_nodup _)).filter _

/-- The function `updateConfig` on a configuration with at least one group, under a valid
schedule: the two assignment loops run on `neededMoveOf` and `candidatesOf`. -/
theorem updateConfig_unfold (sch : Sched) (hv : sch.Valid) (sm : ShardMaster)
    (config : Config) (hne : config.Groups.keys ≠ []) :
    updateConfig sch sm config =
      match fillCandidates (g2sOf config) (expectedOf config) (candidatesOf sch config)
          (neededMoveOf sch config) config.Shards with
      | .error f => .error f
      | .ok (shards, rest) =>
        match roundRobin (candidatesOf sch config) 0 rest shards with
        | .error f => .error f
        | .ok shards' =>
          .ok { sm with configs := sm.configs ++ [{ config with Shards := shards' }] } := by
  have hl : (sch.rangeGroups config.Groups.keys).length = config.Groups.keys.length :=
    (hv.2.2.1 _).length_eq
  have hpos : ¬ config.Groups.keys.length = 0 := fun h => hne (List.length_eq_zero.mp h)
  unfold updateConfig neededMoveOf candidatesOf expectedOf g2sOf
  rcases hgs : groupShards config.Groups 0 config.Shards ([], []) with ⟨g2s, neededMove⟩
  simp only [hl, hpos, if_false, appendExcess_eq]

/-- The function `updateConfig` on a configuration with at least one group, under a valid
schedule: it completes and appends the configuration; `Shards` keeps its length, changes
only at the shards of `neededMove`, and, when there is a candidate, every shard of
`neededMove` goes to a candidate. -/
theorem updateConfig_spec (sch : Sched) (hv : sch.Valid) (sm : ShardMaster)
    (config : Config) (hne : config.Groups.keys ≠ []) :
    ∃ shards', updateConfig sch sm config =
        .ok { sm with configs := sm.configs ++ [{ config with Shards := shards' }] } ∧
      shards'.length = config.Shards.length ∧
      (∀ i, i ∉ neededMoveOf sch config → shards'[i]? = config.Shards[i]?) ∧
      (candidatesOf sch config ≠ [] → ∀ i, i ∈ neededMoveOf sch config →
        ∃ g ∈ candidatesOf sch config, shards'[i]? = some g) := by
  obtain ⟨s₁, consumed, rest, hok₁, hsplit, hlen₁, hout₁, hin₁⟩ :=
    fillCandidates_spec (g2sOf config) (expectedOf config) (candidatesOf sch config)
      (neededMoveOf sch config) config.Shards (neededMoveOf_lt sch hv config)
  have hr : ∀ sid ∈ rest, sid < s₁.length := by
    intro sid hs
    rw [hlen₁]
    exact neededMoveOf_lt sch hv config sid (by rw [hsplit]; exact List.mem_append_right _ hs)
  obtain ⟨s₂, hok₂, hlen₂, _, hout₂, hin₂⟩ :=
    roundRobin_spec (candidatesOf sch config) 0 rest s₁ (Nat.zero_le _) hr
  refine ⟨s₂, ?_, ?_, ?_, ?_⟩
  · rw [updateConfig_unfold sch hv sm config hne, hok₁]
    simp only [hok₂]
  · rw [hlen₂, hlen₁]
  · intro i hi
    rw [hsplit, List.mem_append, not_or] at hi
    rw [hout₂ i hi.2, hout₁ i hi.1]
  · intro hc i hi
    by_cases hrest : i ∈ rest
    · exact hin₂ hc i hrest
    · have hcons : i ∈ consumed := by
        rw [hsplit] at hi
        rcases List.mem_append.mp hi with h | h
        · exact h
        · exact absurd h hrest
      obtain ⟨g, hg, hgi⟩ := hin₁ i hcons
      exact ⟨g, hg, by rw [hout₂ i hrest, hgi]⟩

/-! ## The apply step, case by case -/

theorem newConfig_eq (NShards : Nat) (enum : List Int → List Int) (sm : ShardMaster)
    (latest : Config) (hlast : sm.configs.getLast? = some latest) :
    newConfig NShards enum sm =
      .ok { Num := latest.Num + 1
            Groups := copyGroups enum latest.Groups
            Shards := copyShards (List.replicate NShards 0) 0 latest.Shards } := by
  unfold newConfig
  rw [hlast]

theorem applyMsg_join_ok (NShards : Nat) (sch : Sched) (sm mid : ShardMaster) (index : Int)
    (op : Op) (latest : Config) (hlast : sm.configs.getLast? = some latest)
    (ht : op.Typ = JOIN) (hd : checkDuplicate sm op.Cid op.Seq = false)
    (hu : updateConfig sch sm
        { Num := latest.Num + 1
          Shards := copyShards (List.replicate NShards 0) 0 latest.Shards
          Groups := joinGroups sch.rangeServers op.Servers
            (copyGroups sch.rangeOld latest.Groups) } = .ok mid) :
    applyMsg NShards sch sm ⟨index, some op⟩ = success mid index op := by
  unfold applyMsg
  simp only [Option.getD_some, hd, Bool.false_eq_true, if_false, ht, if_true]
  rw [newConfig_eq NShards sch.rangeOld sm latest hlast]
  simp only [hu]

theorem applyMsg_leave_ok (NShards : Nat) (sch : Sched) (sm mid : ShardMaster) (index : Int)
    (op : Op) (latest : Config) (hlast : sm.configs.getLast? = some latest)
    (ht : op.Typ = LEAVE) (hd : checkDuplicate sm op.Cid op.Seq = false)
    (hu : updateConfig sch sm
        { Num := latest.Num + 1
          Shards := copyShards (List.replicate NShards 0) 0 latest.Shards
          Groups := leaveGroups op.GIDs (copyGroups sch.rangeOld latest.Groups) } = .ok mid) :
    applyMsg NShards sch sm ⟨index, some op⟩ = success mid index op := by
  have hj : ¬ LEAVE = JOIN := by decide
  unfold applyMsg
  simp only [Option.getD_some, hd, Bool.false_eq_true, if_false, ht, if_true]
  rw [newConfig_eq NShards sch.rangeOld sm latest hlast, if_neg hj]
  simp only [hu]

theorem applyMsg_move_ok (NShards : Nat) (sch : Sched) (sm : ShardMaster) (index : Int)
    (op : Op) (latest : Config) (shards : List Int)
    (hlast : sm.configs.getLast? = some latest)
    (ht : op.Typ = MOVE) (hd : checkDuplicate sm op.Cid op.Seq = false)
    (hs : setShard (copyShards (List.replicate NShards 0) 0 latest.Shards) op.Shard op.GID =
      .ok shards) :
    applyMsg NShards sch sm ⟨index, some op⟩ =
      success { sm with configs := sm.configs ++
        [{ Num := latest.Num + 1
           Shards := shards
           Groups := copyGroups sch.rangeOld latest.Groups }] } index op := by
  have hj : ¬ MOVE = JOIN := by decide
  have hl : ¬ MOVE = LEAVE := by decide
  unfold applyMsg
  simp only [Option.getD_some, hd, Bool.false_eq_true, if_false, ht, if_true]
  rw [newConfig_eq NShards sch.rangeOld sm latest hlast, if_neg hj, if_neg hl]
  simp only [hs]

theorem applyMsg_query (NShards : Nat) (sch : Sched) (sm : ShardMaster) (index : Int)
    (op : Op) (ht : op.Typ = QUERY) (hd : checkDuplicate sm op.Cid op.Seq = false) :
    applyMsg NShards sch sm ⟨index, some op⟩ = success sm index op := by
  have hj : ¬ QUERY = JOIN := by decide
  have hl : ¬ QUERY = LEAVE := by decide
  have hm : ¬ QUERY = MOVE := by decide
  unfold applyMsg
  simp only [Option.getD_some, hd, Bool.false_eq_true, if_false, ht, if_true]
  rw [if_neg hj, if_neg hl, if_neg hm]

/-- The function `success` completes unless the channel registered for the index is full,
and then changes neither `configs` nor `request`. -/
theorem success_total (sm : ShardMaster) (index : Int) (op : Op)
    (hch : ∀ ch, sm.result.get? index = some ch → ch = []) :
    ∃ sm', success sm index op = .ok sm' ∧ sm'.configs = sm.configs ∧
      sm'.request = sm.request := by
  unfold success
  cases hg : GoMap.get? sm.result index with
  | none => exact ⟨sm, rfl, rfl, rfl⟩
  | some ch =>
    have hnil := hch ch hg
    subst hnil
    exact ⟨{ sm with result := sm.result.set index ([] ++ [op.Index]) }, by simp, rfl, rfl⟩

theorem success_fault (sm : ShardMaster) (index : Int) (op : Op) (f : Fault)
    (h : success sm index op = .error f) : f = Fault.sendBlocked := by
  unfold success at h
  split at h
  · split at h
    · cases h
    · cases h
      rfl
  · cases h

theorem setShard_ok (a : List Int) (i v : Int) (h0 : 0 ≤ i) (h1 : i.toNat < a.length) :
    setShard a i v = .ok (a.set i.toNat v) := by
  unfold setShard
  rw [if_pos h0, setIndex_ok _ _ _ h1]

/-! ## `Move` -/

/-- C11.  For a `MOVE` that is not a duplicate, with `0 ≤ Shard < NShards`, on a state
whose last configuration `latest` has a `Shards` array of length `NShards` and where no
full channel is registered for the index, the apply step completes and appends one
configuration: its `Num` is `latest.Num + 1`, its `Groups` binds every key as
`latest.Groups` does, its `Shards[Shard]` is `GID` and every other entry of `Shards` is
that of `latest`, whatever `GID` is. -/
theorem move_pure_override (NShards : Nat) (sch : Sched) (sm : ShardMaster) (index : Int)
    (op : Op) (latest : Config)
    (hv : sch.Valid) (hlast : sm.configs.getLast? = some latest)
    (hlen : latest.Shards.length = NShards)
    (ht : op.Typ = MOVE) (hd : checkDuplicate sm op.Cid op.Seq = false)
    (h0 : 0 ≤ op.Shard) (h1 : op.Shard < (NShards : Int))
    (hch : ∀ ch, sm.result.get? index = some ch → ch = []) :
    ∃ sm' config, applyMsg NShards sch sm ⟨index, some op⟩ = .ok sm' ∧
      sm'.configs = sm.configs ++ [config] ∧
      config.Num = latest.Num + 1 ∧
      (∀ k, config.Groups.get? k = latest.Groups.get? k) ∧
      config.Shards[op.Shard.toNat]? = some op.GID ∧
      ∀ j, j ≠ op.Shard.toNat → config.Shards[j]? = latest.Shards[j]? := by
  have hcopy := copyShards_same_length NShards latest.Shards hlen
  have hidx : op.Shard.toNat < latest.Shards.length := by omega
  have hs : setShard (copyShards (List.replicate NShards 0) 0 latest.Shards) op.Shard op.GID =
      .ok (latest.Shards.set op.Shard.toNat op.GID) := by
    rw [hcopy]
    exact setShard_ok _ _ _ h0 hidx
  obtain ⟨sm', hok, hcfg, _⟩ := success_total
    { sm with configs := sm.configs ++
      [{ Num := latest.Num + 1
         Shards := latest.Shards.set op.Shard.toNat op.GID
         Groups := copyGroups sch.rangeOld latest.Groups }] } index op hch
  refine ⟨sm', _, ?_, hcfg, rfl, ?_, ?_, ?_⟩
  · rw [applyMsg_move_ok NShards sch sm index op latest _ hlast ht hd hs]
    exact hok
  · intro k
    exact copyGroups_get? sch.rangeOld hv.1 latest.Groups k
  · exact List.getElem?_set_self hidx
  · intro j hj
    exact List.getElem?_set_ne (fun h => hj h.symm)

/-- Witness of `move_pure_override`: `Move(3, 7)` on the initial state with 10 shards;
group 7 is not a member. -/
theorem move_pure_override_witness :
    ∃ sm' config, applyMsg 10 Sched.stored (StartServer 10) ⟨1, some (moveOp 1 1 3 7)⟩ = .ok sm' ∧
      sm'.configs = (StartServer 10).configs ++ [config] ∧
      config.Num = (initialConfig 10).Num + 1 ∧
      (∀ k, config.Groups.get? k = (initialConfig 10).Groups.get? k) ∧
      config.Shards[(moveOp 1 1 3 7).Shard.toNat]? = some (moveOp 1 1 3 7).GID ∧
      ∀ j, j ≠ (moveOp 1 1 3 7).Shard.toNat → config.Shards[j]? = (initialConfig 10).Shards[j]? :=
  move_pure_override 10 Sched.stored (StartServer 10) 1 (moveOp 1 1 3 7) (initialConfig 10)
    stored_valid rfl rfl rfl rfl (by decide) (by decide) (fun ch h => by cases h)

/-! ## Membership after `Join` and `Leave` -/

theorem keys_ne_nil_of_get? {ν : Type} (m : GoMap Int ν) (k : Int)
    (h : (m.get? k).isSome = true) : m.keys ≠ [] := by
  intro hnil
  have := (GoMap.mem_keys m k).mpr h
  rw [hnil] at this
  exact List.not_mem_nil _ this

theorem joinGroups_get?_if (enum : List Int → List Int) (he : IsEnum enum)
    (servers groups : GoMap Int (List String)) (k : Int) :
    (joinGroups enum servers groups).get? k =
      if (servers.get? k).isSome then servers.get? k else groups.get? k := by
  rw [joinGroups_get? enum he]
  cases GoMap.get? servers k <;> rfl

theorem updateConfig_then_success (sch : Sched) (hv : sch.Valid) (sm : ShardMaster)
    (index : Int) (op : Op) (config : Config) (hne : config.Groups.keys ≠ [])
    (hch : ∀ ch, sm.result.get? index = some ch → ch = []) :
    ∃ mid sm' shards', updateConfig sch sm config = .ok mid ∧
      success mid index op = .ok sm' ∧
      sm'.configs = sm.configs ++ [{ config with Shards := shards' }] := by
  obtain ⟨shards', hu, _⟩ := updateConfig_spec sch hv sm config hne
  obtain ⟨sm', hok, hcfg, _⟩ := success_total
    { sm with configs := sm.configs ++ [{ config with Shards := shards' }] } index op hch
  exact ⟨_, sm', shards', hu, hok, hcfg⟩

/-- C12.  On a state with last configuration `latest`, under a valid schedule and with no
full channel registered for the index, for a command that is not a duplicate: a `JOIN`
that leaves at least one group completes and appends a configuration whose `Groups` binds
a gid of `Servers` to its new server list and every other gid as `latest.Groups` does; a
`LEAVE` that leaves at least one group completes and appends a configuration whose
`Groups` binds no gid of `GIDs` and every other gid as `latest.Groups` does; and
`updateConfig` appends the configuration it is given with only `Shards` replaced. -/
theorem membership_update (NShards : Nat) (sch : Sched) (sm : ShardMaster) (index : Int)
    (op : Op) (latest : Config)
    (hv : sch.Valid) (hlast : sm.configs.getLast? = some latest)
    (hd : checkDuplicate sm op.Cid op.Seq = false)
    (hch : ∀ ch, sm.result.get? index = some ch → ch = []) :
    (op.Typ = JOIN →
      (∃ k, (latest.Groups.get? k).isSome = true ∨ (op.Servers.get? k).isSome = true) →
      ∃ sm' config, applyMsg NShards sch sm ⟨index, some op⟩ = .ok sm' ∧
        sm'.configs = sm.configs ++ [config] ∧
        ∀ k, config.Groups.get? k =
          if (op.Servers.get? k).isSome then op.Servers.get? k else latest.Groups.get? k) ∧
    (op.Typ = LEAVE →
      (∃ k, (latest.Groups.get? k).isSome = true ∧ k ∉ op.GIDs) →
      ∃ sm' config, applyMsg NShards sch sm ⟨index, some op⟩ = .ok sm' ∧
        sm'.configs = sm.configs ++ [config] ∧
        ∀ k, config.Groups.get? k = if k ∈ op.GIDs then none else latest.Groups.get? k) ∧
    (∀ (config : Config) (mid : ShardMaster), updateConfig sch sm config = .ok mid →
      ∃ shards, mid.configs = sm.configs ++ [{ config with Shards := shards }]) := by
  refine ⟨?_, ?_, ?_⟩
  · intro ht hsome
    have hget : ∀ k, (joinGroups sch.rangeServers op.Servers
        (copyGroups sch.rangeOld latest.Groups)).get? k =
        if (op.Servers.get? k).isSome then op.Servers.get? k else latest.Groups.get? k := by
      intro k
      rw [joinGroups_get?_if _ hv.2.1, copyGroups_get? _ hv.1]
    have hne : (joinGroups sch.rangeServers op.Servers
        (copyGroups sch.rangeOld latest.Groups)).keys ≠ [] := by
      obtain ⟨k, hk⟩ := hsome
      apply keys_ne_nil_of_get? _ k
      rw [hget k]
      by_cases hs : (op.Servers.get? k).isSome = true
      · rw [if_pos hs]
        exact hs
      · rw [if_neg hs]
        rcases hk with hk | hk
        · exact hk
        · exact absurd hk hs
    obtain ⟨mid, sm', shards', hu, hok, hcfg⟩ := updateConfig_then_success sch hv sm index op
      { Num := latest.Num + 1
        Shards := copyShards (List.replicate NShards 0) 0 latest.Shards
        Groups := joinGroups sch.rangeServers op.Servers
          (copyGroups sch.rangeOld latest.Groups) } hne hch
    refine ⟨sm', _, ?_, hcfg, hget⟩
    rw [applyMsg_join_ok NShards sch sm mid index op latest hlast ht hd hu]
    exact hok
  · intro ht hsome
    have hget : ∀ k, (leaveGroups op.GIDs (copyGroups sch.rangeOld latest.Groups)).get? k =
        if k ∈ op.GIDs then none else latest.Groups.get? k := by
      intro k
      rw [leaveGroups_get?, copyGroups_get? _ hv.1]
    have hne : (leaveGroups op.GIDs (copyGroups sch.rangeOld latest.Groups)).keys ≠ [] := by
      obtain ⟨k, hk, hnot⟩ := hsome
      apply keys_ne_nil_of_get? _ k
      rw [hget k, if_neg hnot]
      exact hk
    obtain ⟨mid, sm', shards', hu, hok, hcfg⟩ := updateConfig_then_success sch hv sm index op
      { Num := latest.Num + 1
        Shards := copyShards (List.replicate NShards 0) 0 latest.Shards
        Groups := leaveGroups op.GIDs (copyGroups sch.rangeOld latest.Groups) } hne hch
    refine ⟨sm', _, ?_, hcfg, hget⟩
    rw [applyMsg_leave_ok NShards sch sm mid index op latest hlast ht hd hu]
    exact hok
  · intro config mid hu
    obtain ⟨shards, hmid⟩ := updateConfig_ok hu
    exact ⟨shards, by rw [hmid]⟩

/-- Witness of `membership_update`: `Join({1: [b], 2: [c]})` on the state after
`Join({1: [a]})`, whose last configuration has the group 1 with servers `[a]`. -/
theorem membership_update_witness :
    ∃ sm' config,
      applyMsg 10 Sched.stored
        { request := [], result := [],
          configs := [initialConfig 10,
            { Num := 1, Shards := List.replicate 10 1, Groups := [(1, ["a"])] }] }
        ⟨2, some (joinOp 1 2 [(1, ["b"]), (2, ["c"])])⟩ = .ok sm' ∧
      sm'.configs = [initialConfig 10,
          { Num := 1, Shards := List.replicate 10 1, Groups := [(1, ["a"])] }] ++ [config] ∧
      ∀ k, config.Groups.get? k =
        if (GoMap.get? (joinOp 1 2 [(1, ["b"]), (2, ["c"])]).Servers k).isSome
        then GoMap.get? (joinOp 1 2 [(1, ["b"]), (2, ["c"])]).Servers k
        else GoMap.get? [(1, ["a"])] k :=
  (membership_update 10 Sched.stored
    { request := [], result := [],
      configs := [initialConfig 10,
        { Num := 1, Shards := List.replicate 10 1, Groups := [(1, ["a"])] }] }
    2 (joinOp 1 2 [(1, ["b"]), (2, ["c"])])
    { Num := 1, Shards := List.replicate 10 1, Groups := [(1, ["a"])] }
    stored_valid rfl rfl (fun ch h => by cases h)).1 rfl ⟨1, Or.inl rfl⟩

/-! ## `configs` is append-only -/

theorem getElem?_append_of_some {α : Type} (l l' : List α) (i : Nat) (c : α)
    (h : l[i]? = some c) : (l ++ l')[i]? = some c := by
  rw [List.getElem?_append_left (List.getElem?_eq_some_iff.mp h).1]
  exact h

theorem reachable_first (NShards : Nat) (s : ShardMaster) (hr : Reachable NShards s) :
    s.configs[0]? = some (initialConfig NShards) := by
  induction hr with
  | start => rfl
  | apply sch msg _ _ hstep ih =>
    rcases applyMsg_configs hstep with hsame | ⟨_, config, _, _, happ⟩
    · rw [hsame]
      exact ih
    · rw [happ]
      exact getElem?_append_of_some _ _ _ _ ih
  | register index isLeader _ ih =>
    rw [appendLogRegister_configs]
    exact ih
  | receive op index b _ hrecv ih =>
    rw [appendLogReceive_configs hrecv]
    exact ih

/-- C16.  An apply step that completes leaves every entry of `configs` as it was; it
appends exactly one entry when the command is a `JOIN`, `LEAVE` or `MOVE` that is not a
duplicate, and none when the command is a `QUERY` or a duplicate.  In every reachable
state `configs[0]` is the initial configuration: `Num` 0, no groups, every shard owned
by 0. -/
theorem configs_append_only (NShards : Nat) (sch : Sched) (sm sm' : ShardMaster)
    (index : Int) (op : Op) (s : ShardMaster)
    (h : applyMsg NShards sch sm ⟨index, some op⟩ = .ok sm')
    (hr : Reachable NShards s) :
    (∀ (i : Nat) (c : Config), sm.configs[i]? = some c → sm'.configs[i]? = some c) ∧
    (checkDuplicate sm op.Cid op.Seq = false →
      (op.Typ = JOIN ∨ op.Typ = LEAVE ∨ op.Typ = MOVE) →
      ∃ config, sm'.configs = sm.configs ++ [config]) ∧
    (checkDuplicate sm op.Cid op.Seq = true ∨ op.Typ = QUERY → sm'.configs = sm.configs) ∧
    s.configs[0]? =
      some { Num := 0, Shards := List.replicate NShards 0, Groups := [] } := by
  refine ⟨?_, ?_, ?_, reachable_first NShards s hr⟩
  · intro i c hi
    rcases applyMsg_configs h with hsame | ⟨_, config, _, _, happ⟩
    · rw [hsame]
      exact hi
    · rw [happ]
      exact getElem?_append_of_some _ _ _ _ hi
  · intro hd ht
    exact applyMsg_append h hd ht
  · intro hq
    rcases checkDuplicate_cases sm op.Cid op.Seq with hd | hd
    · rw [applyMsg_duplicate NShards sch sm ⟨index, some op⟩ hd] at h
      cases h
      rfl
    · rcases hq with hq | hq
      · rw [hd] at hq
        cases hq
      · rw [applyMsg_query NShards sch sm index op hq hd] at h
        exact (success_ok h).2.1

/-- Witness of `configs_append_only`: `Join({1: [a]})` applied to the initial state with
10 shards, and the state reached by that step. -/
theorem configs_append_only_witness :
    applyMsg 10 Sched.stored (StartServer 10) ⟨1, some (joinOp 1 1 [(1, ["a"])])⟩ =
      .ok { request := [], result := [],
            configs := [initialConfig 10,
              { Num := 1, Shards := List.replicate 10 1, Groups := [(1, ["a"])] }] } ∧
    (∃ config,
      [initialConfig 10,
        { Num := 1, Shards := List.replicate 10 1, Groups := [(1, ["a"])] }] =
        (StartServer 10).configs ++ [config]) ∧
    ([initialConfig 10,
        ({ Num := 1, Shards := List.replicate 10 1, Groups := [(1, ["a"])] } : Config)])[0]? =
      some { Num := 0, Shards := List.replicate 10 0, Groups := [] } :=
  ⟨rfl,
    (configs_append_only 10 Sched.stored (StartServer 10)
      { request := [], result := [],
        configs := [initialConfig 10,
          { Num := 1, Shards := List.replicate 10 1, Groups := [(1, ["a"])] }] }
      1 (joinOp 1 1 [(1, ["a"])])
      { request := [], result := [],
        configs := [initialConfig 10,
          { Num := 1, Shards := List.replicate 10 1, Groups := [(1, ["a"])] }] }
      rfl
      (Reachable.apply Sched.stored ⟨1, some (joinOp 1 1 [(1, ["a"])])⟩ Reachable.start
        stored_valid rfl)).2.1 rfl (Or.inl rfl),
    (configs_append_only 10 Sched.stored (StartServer 10)
      { request := [], result := [],
        configs := [initialConfig 10,
          { Num := 1, Shards := List.replicate 10 1, Groups := [(1, ["a"])] }] }
      1 (joinOp 1 1 [(1, ["a"])])
      { request := [], result := [],
        configs := [initialConfig 10,
          { Num := 1, Shards := List.replicate 10 1, Groups := [(1, ["a"])] }] }
      rfl
      (Reachable.apply Sched.stored ⟨1, some (joinOp 1 1 [(1, ["a"])])⟩ Reachable.start
        stored_valid rfl)).2.2.2⟩

/-! ## `appendLog` without a signal -/

/-- C17, as the code has it.  When `appendLog` registers a waiter for `index` and the wait
ends by timeout, it returns false and `result` still holds the channel registered for
`index`: nothing is removed from `result`, and `request` is unchanged.  When the replica
is not the leader, `appendLog` returns false and leaves the state, `result` and `request`
included, as it was. -/
theorem timeout_keeps_waiter (sm : ShardMaster) (index : Int) :
    (appendLogNoSignal sm index true).2 = false ∧
    (appendLogNoSignal sm index true).1.result.get? index = some [] ∧
    (appendLogNoSignal sm index true).1.request = sm.request ∧
    appendLogNoSignal sm index false = (sm, false) := by
  refine ⟨rfl, ?_, rfl, rfl⟩
  show GoMap.get? (sm.result.set index []) index = some []
  exact GoMap.get?_set_self _ _ _

/-- C17 fails as stated: on the initial state a leader registers a waiter for index 3 and
the wait ends by timeout; `appendLog` returns false and `result` still has the entry for
index 3, which it did not have before. -/
theorem timeout_leaves_entry :
    (StartServer 10).result.get? 3 = none ∧
    (appendLogNoSignal (StartServer 10) 3 true).2 = false ∧
    (appendLogNoSignal (StartServer 10) 3 true).1.result = [(3, [])] ∧
    (appendLogNoSignal (StartServer 10) 3 true).1.result.contains 3 = true :=
  ⟨rfl, rfl, rfl, rfl⟩

/-! ## The comparison `idx == op.Index` -/

theorem handlerBuilt_index (op : Op) (h : HandlerBuilt op) : op.Index = 0 := by
  rcases h with ⟨cid, seq, servers, h⟩ | ⟨cid, seq, gids, h⟩ | ⟨cid, seq, shard, gid, h⟩ |
    ⟨cid, seq, num, h⟩ <;> rw [h] <;> rfl

/-- C18.  Every `Op` built by a handler has `Index = 0`.  When a handler that submitted
`a` waits on `index` (empty channel registered) and the apply step signals the commit of a
handler-built `b` at that index through `success`, the handler receives the value 0, the
comparison `idx == op.Index` holds and `appendLog` returns true, whether or not `b` is
`a`. -/
theorem crosscheck_is_noop (sm : ShardMaster) (index : Int) (a b : Op)
    (ha : HandlerBuilt a) (hb : HandlerBuilt b)
    (hw : sm.result.get? index = some []) :
    a.Index = 0 ∧ b.Index = 0 ∧
    ∃ sm₁ sm₂, success sm index b = .ok sm₁ ∧
      sm₁.result.get? index = some [b.Index] ∧
      appendLogReceive sm₁ a index = some (sm₂, true) := by
  have ha0 := handlerBuilt_index a ha
  have hb0 := handlerBuilt_index b hb
  have hs : success sm index b =
      .ok { sm with result := sm.result.set index ([] ++ [b.Index]) } := by
    unfold success
    rw [hw]
    simp
  have hget : GoMap.get? (sm.result.set index ([] ++ [b.Index])) index = some [b.Index] :=
    GoMap.get?_set_self _ _ _
  refine ⟨ha0, hb0, { sm with result := sm.result.set index ([] ++ [b.Index]) },
    { request := sm.request.set a.Cid a.Seq
      result := (sm.result.set index ([] ++ [b.Index])).set index []
      configs := sm.configs }, hs, hget, ?_⟩
  unfold appendLogReceive
  simp only [hget]
  simp only [ha0, hb0, decide_True]

/-- Witness of `crosscheck_is_noop`: the handler submitted `Join({1: [a]})` of client 1,
and `Move(3, 7)` of client 2 commits at the index it waits on. -/
theorem crosscheck_is_noop_witness :
    joinOp 1 1 [(1, ["a"])] ≠ moveOp 2 7 3 7 ∧
    (joinOp 1 1 [(1, ["a"])]).Index = 0 ∧ (moveOp 2 7 3 7).Index = 0 ∧
    ∃ sm₁ sm₂, success retryState 7 (moveOp 2 7 3 7) = .ok sm₁ ∧
      sm₁.result.get? 7 = some [(moveOp 2 7 3 7).Index] ∧
      appendLogReceive sm₁ (joinOp 1 1 [(1, ["a"])]) 7 = some (sm₂, true) :=
  ⟨by decide,
    crosscheck_is_noop retryState 7 (joinOp 1 1 [(1, ["a"])]) (moveOp 2 7 3 7)
      (Or.inl ⟨1, 1, [(1, ["a"])], rfl⟩) (Or.inr (Or.inr (Or.inl ⟨2, 7, 3, 7, rfl⟩))) rfl⟩

/-! ## The apply step does not fault -/

theorem applyMsg_other (NShards : Nat) (sch : Sched) (sm : ShardMaster) (index : Int)
    (op : Op) (hj : op.Typ ≠ JOIN) (hl : op.Typ ≠ LEAVE) (hm : op.Typ ≠ MOVE)
    (hq : op.Typ ≠ QUERY) : applyMsg NShards sch sm ⟨index, some op⟩ = .ok sm := by
  unfold applyMsg
  simp only [Option.getD_some, if_neg hj, if_neg hl, if_neg hm, if_neg hq]
  split <;> rfl

theorem contains_iff_mem_keys {ν : Type} (m : GoMap Int ν) (k : Int) :
    m.contains k = true ↔ k ∈ m.keys := by
  rw [GoMap.mem_keys]
  rfl

/-- Under the preconditions of C20 the apply step is the state unchanged, or `success`
on a state that has the `result` of the state before. -/
theorem applyMsg_shape (NShards : Nat) (sch : Sched) (sm : ShardMaster) (index : Int)
    (op : Op) (latest : Config)
    (hv : sch.Valid) (hlast : sm.configs.getLast? = some latest)
    (hjoin : op.Typ = JOIN →
      ∃ k, (latest.Groups.get? k).isSome = true ∨ (op.Servers.get? k).isSome = true)
    (hleave : op.Typ = LEAVE → ∃ k, (latest.Groups.get? k).isSome = true ∧ k ∉ op.GIDs)
    (hmove : op.Typ = MOVE → 0 ≤ op.Shard ∧ op.Shard < (NShards : Int)) :
    applyMsg NShards sch sm ⟨index, some op⟩ = .ok sm ∨
    ∃ mid, mid.result = sm.result ∧
      applyMsg NShards sch sm ⟨index, some op⟩ = success mid index op := by
  rcases checkDuplicate_cases sm op.Cid op.Seq with hd | hd
  · exact Or.inl (applyMsg_duplicate NShards sch sm ⟨index, some op⟩ hd)
  · by_cases hj : op.Typ = JOIN
    · right
      have hne : (joinGroups sch.rangeServers op.Servers
          (copyGroups sch.rangeOld latest.Groups)).keys ≠ [] := by
        obtain ⟨k, hk⟩ := hjoin hj
        apply keys_ne_nil_of_get? _ k
        rw [joinGroups_get?_if _ hv.2.1, copyGroups_get? _ hv.1]
        by_cases hs : (op.Servers.get? k).isSome = true
        · rw [if_pos hs]
          exact hs
        · rw [if_neg hs]
          rcases hk with hk | hk
          · exact hk
          · exact absurd hk hs
      obtain ⟨shards', hu, _⟩ := updateConfig_spec sch hv sm
        { Num := latest.Num + 1
          Shards := copyShards (List.replicate NShards 0) 0 latest.Shards
          Groups := joinGroups sch.rangeServers op.Servers
            (copyGroups sch.rangeOld latest.Groups) } hne
      refine ⟨_, ?_, applyMsg_join_ok NShards sch sm _ index op latest hlast hj hd hu⟩
      rfl
    · by_cases hl : op.Typ = LEAVE
      · right
        have hne : (leaveGroups op.GIDs (copyGroups sch.rangeOld latest.Groups)).keys ≠ [] := by
          obtain ⟨k, hk, hnot⟩ := hleave hl
          apply keys_ne_nil_of_get? _ k
          rw [leaveGroups_get?, copyGroups_get? _ hv.1, if_neg hnot]
          exact hk
        obtain ⟨shards', hu, _⟩ := updateConfig_spec sch hv sm
          { Num := latest.Num + 1
            Shards := copyShards (List.replicate NShards 0) 0 latest.Shards
            Groups := leaveGroups op.GIDs (copyGroups sch.rangeOld latest.Groups) } hne
        refine ⟨_, ?_, applyMsg_leave_ok NShards sch sm _ index op latest hlast hl hd hu⟩
        rfl
      · by_cases hm : op.Typ = MOVE
        · right
          obtain ⟨h0, h1⟩ := hmove hm
          have hidx : op.Shard.toNat <
              (copyShards (List.replicate NShards 0) 0 latest.Shards).length := by
            rw [copyShards_length, List.length_replicate]
            omega
          refine ⟨_, ?_, applyMsg_move_ok NShards sch sm index op latest _ hlast hm hd
            (setShard_ok _ _ _ h0 hidx)⟩
          rfl
        · by_cases hq : op.Typ = QUERY
          · exact Or.inr ⟨sm, rfl, applyMsg_query NShards sch sm index op hq hd⟩
          · exact Or.inl (applyMsg_other NShards sch sm index op hj hl hm hq)

/-- C20.  On a state with a last configuration, under a valid schedule, for a command
such that a `JOIN` or `LEAVE` leaves at least one group and a `MOVE` has
`0 ≤ Shard < NShards`: the apply step ends in no run-time fault (no division by zero, no
slice `sids[expected:]` out of range, no index out of range; the only way not to
complete is a send on a full channel), and it completes when no full channel is
registered for the index. -/
theorem apply_fault_free (NShards : Nat) (sch : Sched) (sm : ShardMaster) (index : Int)
    (op : Op) (latest : Config)
    (hv : sch.Valid) (hlast : sm.configs.getLast? = some latest)
    (hjoin : op.Typ = JOIN →
      ∃ k, (latest.Groups.get? k).isSome = true ∨ (op.Servers.get? k).isSome = true)
    (hleave : op.Typ = LEAVE → ∃ k, (latest.Groups.get? k).isSome = true ∧ k ∉ op.GIDs)
    (hmove : op.Typ = MOVE → 0 ≤ op.Shard ∧ op.Shard < (NShards : Int)) :
    (∀ f, applyMsg NShards sch sm ⟨index, some op⟩ = .error f → f = Fault.sendBlocked) ∧
    ((∀ ch, sm.result.get? index = some ch → ch = []) →
      ∃ sm', applyMsg NShards sch sm ⟨index, some op⟩ = .ok sm') := by
  rcases applyMsg_shape NShards sch sm index op latest hv hlast hjoin hleave hmove with
    h | ⟨mid, hres, h⟩
  · rw [h]
    exact ⟨fun f hf => (by cases hf), fun _ => ⟨sm, rfl⟩⟩
  · rw [h]
    refine ⟨fun f hf => success_fault mid index op f hf, fun hch => ?_⟩
    obtain ⟨sm', hok, _⟩ := success_total mid index op (by rw [hres]; exact hch)
    exact ⟨sm', hok⟩

/-- Witness of `apply_fault_free`: `Leave([2])` on a state whose last configuration has
the groups 1 and 2, with a waiter registered for the index.  Group 1 owns 5 shards and
`expected` is 10: the slice `sids[expected:]`, which the loop over `g2s` does not take,
would be out of range. -/
theorem apply_fault_free_witness :
    sliceFrom (ownedIdx [1, 1, 1, 1, 1, 2, 2, 2, 2, 2] 1) 10 = .error Fault.sliceOutOfRange ∧
    (∀ f, applyMsg 10 Sched.stored
        { request := [], result := [(3, [])],
          configs := [initialConfig 10,
            { Num := 1, Shards := [1, 1, 1, 1, 1, 2, 2, 2, 2, 2],
              Groups := [(1, ["a"]), (2, ["b"])] }] }
        ⟨3, some (leaveOp 1 2 [2])⟩ = .error f → f = Fault.sendBlocked) ∧
    ((∀ ch, GoMap.get? [((3 : Int), ([] : List Int))] 3 = some ch → ch = []) →
      ∃ sm', applyMsg 10 Sched.stored
        { request := [], result := [(3, [])],
          configs := [initialConfig 10,
            { Num := 1, Shards := [1, 1, 1, 1, 1, 2, 2, 2, 2, 2],
              Groups := [(1, ["a"]), (2, ["b"])] }] }
        ⟨3, some (leaveOp 1 2 [2])⟩ = .ok sm') :=
  ⟨rfl, apply_fault_free 10 Sched.stored
    { request := [], result := [(3, [])],
      configs := [initialConfig 10,
        { Num := 1, Shards := [1, 1, 1, 1, 1, 2, 2, 2, 2, 2],
          Groups := [(1, ["a"]), (2, ["b"])] }] }
    3 (leaveOp 1 2 [2])
    { Num := 1, Shards := [1, 1, 1, 1, 1, 2, 2, 2, 2, 2], Groups := [(1, ["a"]), (2, ["b"])] }
    stored_valid rfl (fun h => by cases h) (fun _ => ⟨1, rfl, by decide⟩)
    (fun h => by cases h)⟩

/-! ## Which shards `updateConfig` moves -/

theorem expectedOf_eq_max (config : Config) :
    expectedOf config = max 1 (config.Shards.length / config.Groups.keys.length) := by
  unfold expectedOf expectedLoad
  split
  · rename_i h
    rw [h]
    rfl
  · rename_i h
    have := Nat.pos_of_ne_zero h
    omega

/-- The first `expected` shards of a key of `Groups` are not in `neededMove`. -/
theorem kept_not_needed (sch : Sched) (hv : sch.Valid) (config : Config) (g : Int)
    (hg : g ∈ config.Groups.keys) (i : Nat)
    (hi : i ∈ (ownedIdx config.Shards g).take (expectedOf config)) :
    i ∉ neededMoveOf sch config := by
  have hown : config.Shards[i]? = some g :=
    (mem_ownedIdx _ _ _).mp (List.mem_of_mem_take hi)
  rw [mem_neededMoveOf sch hv]
  rintro (⟨o, ho, hc⟩ | ⟨g', _, hi'⟩)
  · rw [hown] at ho
    rw [← Option.some.inj ho, (contains_iff_mem_keys _ _).mpr hg] at hc
    cases hc
  · have hown' : config.Shards[i]? = some g' :=
      (mem_ownedIdx _ _ _).mp (List.mem_of_mem_drop hi')
    rw [hown] at hown'
    rw [← Option.some.inj hown'] at hi'
    exact List.disjoint_take_drop (ownedIdx_nodup _ _) (Nat.le_refl _) hi hi'

/-- C13.  For a configuration with at least one group and `t = max(1, S / N)`, under a
valid schedule, `updateConfig` completes, and in the `Shards` it appends: the `t`
lowest-indexed shards owned by a member group `g` (all of them when `g` owns at most `t`)
are still owned by `g`; a shard whose owner changed was owned by a gid outside `Groups`,
or was owned by a member group and is not among the first `t` shards of that group. -/
theorem minimal_movement (sch : Sched) (sm : ShardMaster) (config : Config)
    (hv : sch.Valid) (hne : config.Groups.keys ≠ []) :
    expectedOf config = max 1 (config.Shards.length / config.Groups.keys.length) ∧
    ∃ shards', updateConfig sch sm config =
        .ok { sm with configs := sm.configs ++ [{ config with Shards := shards' }] } ∧
      (∀ g ∈ config.Groups.keys, ∀ i ∈ (ownedIdx config.Shards g).take (expectedOf config),
        shards'[i]? = some g) ∧
      (∀ i, shards'[i]? ≠ config.Shards[i]? →
        (∃ o, config.Shards[i]? = some o ∧ o ∉ config.Groups.keys) ∨
        ∃ g ∈ config.Groups.keys, i ∈ (ownedIdx config.Shards g).drop (expectedOf config)) := by
  refine ⟨expectedOf_eq_max config, ?_⟩
  obtain ⟨shards', hok, _, hout, _⟩ := updateConfig_spec sch hv sm config hne
  refine ⟨shards', hok, ?_, ?_⟩
  · intro g hg i hi
    rw [hout i (kept_not_needed sch hv config g hg i hi)]
    exact (mem_ownedIdx _ _ _).mp (List.mem_of_mem_take hi)
  · intro i hi
    have hin : i ∈ neededMoveOf sch config := by
      by_contra hnot
      exact hi (hout i hnot)
    rcases (mem_neededMoveOf sch hv config i).mp hin with ⟨o, ho, hc⟩ | ⟨g, hc, hg⟩
    · left
      refine ⟨o, ho, ?_⟩
      intro hk
      rw [(contains_iff_mem_keys _ _).mpr hk] at hc
      cases hc
    · exact Or.inr ⟨g, (contains_iff_mem_keys _ _).mp hc, hg⟩

/-- Witness of `minimal_movement`: groups 1, 2, 3, with group 1 owning shards 0 to 5,
group 2 shards 6 and 7, and the removed group 9 shards 8 and 9. -/
theorem minimal_movement_witness :
    expectedOf { Num := 1, Shards := [1, 1, 1, 1, 1, 1, 2, 2, 9, 9],
                 Groups := [(1, ["a"]), (2, ["b"]), (3, ["c"])] } = max 1 (10 / 3) ∧
    ∃ shards', updateConfig Sched.stored (StartServer 10)
        { Num := 1, Shards := [1, 1, 1, 1, 1, 1, 2, 2, 9, 9],
          Groups := [(1, ["a"]), (2, ["b"]), (3, ["c"])] } =
        .ok { StartServer 10 with configs := (StartServer 10).configs ++
          [{ Num := 1, Shards := shards', Groups := [(1, ["a"]), (2, ["b"]), (3, ["c"])] }] } ∧
      (∀ g ∈ GoMap.keys [((1 : Int), ["a"]), (2, ["b"]), (3, ["c"])],
        ∀ i ∈ (ownedIdx [1, 1, 1, 1, 1, 1, 2, 2, 9, 9] g).take
          (expectedOf { Num := 1, Shards := [1, 1, 1, 1, 1, 1, 2, 2, 9, 9],
                        Groups := [(1, ["a"]), (2, ["b"]), (3, ["c"])] }),
        shards'[i]? = some g) ∧
      (∀ i, shards'[i]? ≠ ([1, 1, 1, 1, 1, 1, 2, 2, 9, 9] : List Int)[i]? →
        (∃ o, ([1, 1, 1, 1, 1, 1, 2, 2, 9, 9] : List Int)[i]? = some o ∧
          o ∉ GoMap.keys [((1 : Int), ["a"]), (2, ["b"]), (3, ["c"])]) ∨
        ∃ g ∈ GoMap.keys [((1 : Int), ["a"]), (2, ["b"]), (3, ["c"])],
          i ∈ (ownedIdx [1, 1, 1, 1, 1, 1, 2, 2, 9, 9] g).drop
            (expectedOf { Num := 1, Shards := [1, 1, 1, 1, 1, 1, 2, 2, 9, 9],
                          Groups := [(1, ["a"]), (2, ["b"]), (3, ["c"])] })) :=
  minimal_movement Sched.stored (StartServer 10)
    { Num := 1, Shards := [1, 1, 1, 1, 1, 1, 2, 2, 9, 9],
      Groups := [(1, ["a"]), (2, ["b"]), (3, ["c"])] }
    stored_valid (by decide)

/-! ## A single group -/

theorem length_le_of_nodup_lt (l : List Nat) (n : Nat) (hnd : l.Nodup)
    (hlt : ∀ i ∈ l, i < n) : l.length ≤ n := by
  have hsub : l.toFinset ⊆ Finset.range n := by
    intro i hi
    exact Finset.mem_range.mpr (hlt i (List.mem_toFinset.mp hi))
  have := Finset.card_le_card hsub
  rwa [List.toFinset_card_of_nodup hnd, Finset.card_range] at this

theorem length_lt_of_nodup_missing (l : List Nat) (n i : Nat) (hnd : l.Nodup)
    (hlt : ∀ j ∈ l, j < n) (hi : i < n) (hmiss : i ∉ l) : l.length < n := by
  have hsub : l.toFinset ⊆ (Finset.range n).erase i := by
    intro j hj
    have hjl := List.mem_toFinset.mp hj
    exact Finset.mem_erase.mpr
      ⟨fun h => hmiss (h ▸ hjl), Finset.mem_range.mpr (hlt j hjl)⟩
  have := Finset.card_le_card hsub
  rw [List.toFinset_card_of_nodup hnd, Finset.card_erase_of_mem (Finset.mem_range.mpr hi),
    Finset.card_range] at this
  omega

theorem ownedIdx_lt (shards : List Int) (g : Int) (i : Nat) (hi : i ∈ ownedIdx shards g) :
    i < shards.length :=
  (List.getElem?_eq_some_iff.mp ((mem_ownedIdx _ _ _).mp hi)).1

/-- C15.  For a configuration whose `Groups` has the single key `g`, whatever the
previous owners, `updateConfig` completes under a valid schedule and every entry of the
`Shards` it appends is `g`. -/
theorem sole_group_owns_all (sch : Sched) (sm : ShardMaster) (config : Config) (g : Int)
    (hv : sch.Valid) (hk : config.Groups.keys = [g]) :
    updateConfig sch sm config =
      .ok { sm with configs := sm.configs ++
        [{ config with Shards := List.replicate config.Shards.length g }] } := by
  have hne : config.Groups.keys ≠ [] := by
    rw [hk]
    exact List.cons_ne_nil _ _
  have hkey : ∀ g', g' ∈ config.Groups.keys → g' = g := by
    intro g' hg'
    rw [hk] at hg'
    exact List.mem_singleton.mp hg'
  have hgk : g ∈ config.Groups.keys := by
    rw [hk]
    exact List.mem_singleton.mpr rfl
  obtain ⟨shards', hok, hlen, hout, hin⟩ := updateConfig_spec sch hv sm config hne
  have hall : ∀ (i : Nat) (o : Int), shards'[i]? = some o → o = g := by
    intro i o hio
    have hi : i < config.Shards.length := by
      rw [← hlen]
      exact (List.getElem?_eq_some_iff.mp hio).1
    by_cases hnm : i ∈ neededMoveOf sch config
    · by_cases hc : candidatesOf sch config = []
      · exfalso
        have hexp : expectedOf config = config.Shards.length := by
          unfold expectedOf expectedLoad
          rw [hk]
          simp only [List.length_singleton, Nat.div_one]
          rw [if_neg (by omega)]
        have hge : ¬ (ownedIdx config.Shards g).length < expectedOf config := by
          intro hlt
          have : g ∈ candidatesOf sch config := (mem_candidatesOf sch hv config g).mpr ⟨hgk, hlt⟩
          rw [hc] at this
          exact List.not_mem_nil _ this
        rcases (mem_neededMoveOf sch hv config i).mp hnm with ⟨o', ho', hco⟩ | ⟨g', hcg, hig⟩
        · have hmiss : i ∉ ownedIdx config.Shards g := by
            intro hmem
            have := (mem_ownedIdx _ _ _).mp hmem
            rw [ho'] at this
            rw [Option.some.inj this, (contains_iff_mem_keys _ _).mpr hgk] at hco
            cases hco
          have := length_lt_of_nodup_missing _ _ i (ownedIdx_nodup config.Shards g)
            (ownedIdx_lt config.Shards g) hi hmiss
          omega
        · have hg' := hkey g' ((contains_iff_mem_keys _ _).mp hcg)
          rw [hg'] at hig
          have hle := length_le_of_nodup_lt _ _ (ownedIdx_nodup config.Shards g)
            (ownedIdx_lt config.Shards g)
          have hd : (ownedIdx config.Shards g).drop (expectedOf config) = [] :=
            List.drop_eq_nil_of_le (by omega)
          rw [hd] at hig
          exact List.not_mem_nil _ hig
      · obtain ⟨g', hg', hgi⟩ := hin hc i hnm
        rw [hgi] at hio
        rw [← Option.some.inj hio]
        exact hkey g' ((mem_candidatesOf sch hv config g').mp hg').1
    · rw [hout i hnm] at hio
      by_cases hco : config.Groups.contains o = true
      · exact hkey o ((contains_iff_mem_keys _ _).mp hco)
      · exfalso
        apply hnm
        rw [mem_neededMoveOf sch hv]
        exact Or.inl ⟨o, hio, by simpa using hco⟩
  have hrep : shards' = List.replicate config.Shards.length g := by
    rw [List.eq_replicate_iff]
    refine ⟨hlen, ?_⟩
    intro o ho
    obtain ⟨i, hi⟩ := List.getElem?_of_mem ho
    exact hall i o hi
  rw [hok, hrep]

/-- Witness of `sole_group_owns_all`: the single group 101 and shards owned by 101, by
the removed group 100 and by nobody. -/
theorem sole_group_owns_all_witness :
    updateConfig Sched.stored (StartServer 10)
        { Num := 3, Shards := [100, 100, 0, 100, 100, 101, 101, 0, 101, 101],
          Groups := [(101, ["b"])] } =
      .ok { StartServer 10 with configs := (StartServer 10).configs ++
        [{ Num := 3, Shards := List.replicate 10 101, Groups := [(101, ["b"])] }] } :=
  sole_group_owns_all Sched.stored (StartServer 10)
    { Num := 3, Shards := [100, 100, 0, 100, 100, 101, 101, 0, 101, 101],
      Groups := [(101, ["b"])] } 101 stored_valid rfl

/-! ## The scenario of the specification -/

theorem enum_nil (e : List Int → List Int) (he : IsEnum e) : e [] = [] :=
  List.Perm.eq_nil (he [])

theorem enum_single (e : List Int → List Int) (he : IsEnum e) (a : Int) : e [a] = [a] :=
  List.perm_singleton.mp (he [a])

theorem enum_pair (e : List Int → List Int) (he : IsEnum e) (a b : Int) :
    e [a, b] = [a, b] ∨ e [a, b] = [b, a] := by
  have hp := he [a, b]
  have hlen := hp.length_eq
  rcases hl : e [a, b] with _ | ⟨x, _ | ⟨y, _ | ⟨z, rest⟩⟩⟩
  · rw [hl] at hlen
    simp at hlen
  · rw [hl] at hlen
    simp at hlen
  · rw [hl] at hp
    have hx : x ∈ [a, b] := hp.subset (List.mem_cons_self _ _)
    have hy : y ∈ [a, b] := hp.subset (List.mem_cons_of_mem _ (List.mem_cons_self _ _))
    have ha : a ∈ [x, y] := hp.symm.subset (List.mem_cons_self _ _)
    have hb : b ∈ [x, y] := hp.symm.subset (List.mem_cons_of_mem _ (List.mem_cons_self _ _))
    simp only [List.mem_cons, List.mem_singleton, List.not_mem_nil, or_false] at hx hy ha hb
    rcases hx with hx | hx <;> rcases hy with hy | hy <;> subst hx <;> subst hy
    · rcases hb with hb | hb <;> simp [hb]
    · exact Or.inl rfl
    · exact Or.inr rfl
    · rcases ha with ha | ha <;> simp [ha]
  · rw [hl] at hlen
    simp at hlen

theorem scenario_step1 (sch : Sched) (hv : sch.Valid) :
    applyMsg 10 sch (StartServer 10) ⟨1, some (joinOp 1 1 [(100, ["addrA"])])⟩ =
      .ok { request := [], result := [], configs := scenarioConfigs.take 2 } := by
  have h1 := enum_nil _ hv.1
  have h2 := enum_single _ hv.2.1 100
  have h3 := enum_single _ hv.2.2.1 100
  have h4 := enum_nil _ hv.2.2.2
  simp [applyMsg, checkDuplicate, StartServer, joinOp, JOIN, newConfig, copyGroups, copyShards,
    joinGroups, GoMap.keys, distinct, GoMap.get?, GoMap.set, GoMap.contains, updateConfig,
    groupShards, expectedLoad, appendExcess, sliceFrom, candidates, fillCandidates, assign, roundRobin,
    setIndex, success, scenarioConfigs, h1, h2, h3, h4]

theorem scenario_step2 (sch : Sched) (hv : sch.Valid) :
    applyMsg 10 sch { request := [], result := [], configs := scenarioConfigs.take 2 }
        ⟨2, some (joinOp 1 2 [(101, ["addrB"])])⟩ =
      .ok { request := [], result := [], configs := scenarioConfigs.take 3 } := by
  have h1 := enum_single _ hv.1 100
  have h2 := enum_single _ hv.2.1 101
  have h4 := enum_single _ hv.2.2.2 100
  rcases enum_pair _ hv.2.2.1 100 101 with h3 | h3 <;>
  simp [applyMsg, checkDuplicate, joinOp, JOIN, newConfig, copyGroups, copyShards,
    joinGroups, GoMap.keys, distinct, GoMap.get?, GoMap.set, GoMap.contains, updateConfig,
    groupShards, expectedLoad, appendExcess, sliceFrom, candidates, fillCandidates, assign, roundRobin,
    setIndex, success, scenarioConfigs, h1, h2, h3, h4]

theorem scenario_step3 (sch : Sched) (hv : sch.Valid) :
    applyMsg 10 sch { request := [], result := [], configs := scenarioConfigs.take 3 }
        ⟨3, some (leaveOp 1 3 [100])⟩ =
      .ok { request := [], result := [], configs := scenarioConfigs.take 4 } := by
  have h3 := enum_single _ hv.2.2.1 101
  have h4 := enum_single _ hv.2.2.2 101
  rcases enum_pair _ hv.1 100 101 with h1 | h1 <;>
  simp [applyMsg, checkDuplicate, leaveOp, JOIN, LEAVE, newConfig, copyGroups, copyShards,
    leaveGroups, GoMap.delete, GoMap.keys, distinct, GoMap.get?, GoMap.set, GoMap.contains,
    updateConfig, groupShards, expectedLoad, appendExcess, sliceFrom, candidates, fillCandidates, assign,
    roundRobin, setIndex, success, scenarioConfigs, h1, h3, h4]

theorem scenario_step4 (sch : Sched) (hv : sch.Valid) :
    applyMsg 10 sch { request := [], result := [], configs := scenarioConfigs.take 4 }
        ⟨4, some (moveOp 1 4 3 101)⟩ =
      .ok { request := [], result := [], configs := scenarioConfigs } := by
  have h1 := enum_single _ hv.1 101
  simp [applyMsg, checkDuplicate, moveOp, JOIN, LEAVE, MOVE, newConfig, copyGroups, copyShards,
    GoMap.keys, distinct, GoMap.get?, GoMap.set, GoMap.contains, setShard,
    setIndex, success, scenarioConfigs, h1]

/-- C14.  With `NShards = 10`, from the initial state, `Join({100: [addrA]})`,
`Join({101: [addrB]})`, `Leave([100])` and `Move(3, 101)` applied in this order under any
valid schedules give the five configurations of `scenarioConfigs`: `configs[1]` has all
10 shards owned by 100, `configs[2]` has 5 shards owned by 100 and 5 by 101, `configs[3]`
has all 10 shards owned by 101, `configs[4]` has `Num = 4` and the `Shards` of
`configs[3]`; and `Query(0)` then replies with the configuration of `Num` 0, no groups
and every shard owned by 0. -/
theorem spec_scenario (sch₁ sch₂ sch₃ sch₄ : Sched) (reply : QueryReply)
    (hv₁ : sch₁.Valid) (hv₂ : sch₂.Valid) (hv₃ : sch₃.Valid) (hv₄ : sch₄.Valid) :
    runServer 10 (StartServer 10) (scenarioStream sch₁ sch₂ sch₃ sch₄) =
      .ok { request := [], result := [], configs := scenarioConfigs } ∧
    scenarioConfigs.length = 5 ∧
    scenarioConfigs.map (fun c => owned c.Shards 100) = [0, 10, 5, 0, 0] ∧
    scenarioConfigs.map (fun c => owned c.Shards 101) = [0, 0, 5, 10, 10] ∧
    scenarioConfigs.map (fun c => c.Num) = [0, 1, 2, 3, 4] ∧
    Query { request := [], result := [], configs := scenarioConfigs } 0 true reply =
      .ok { reply with
            Config := { Num := 0, Shards := List.replicate 10 0, Groups := [] }
            WrongLeader := false } := by
  refine ⟨?_, rfl, by decide, by decide, rfl, rfl⟩
  unfold scenarioStream runServer
  rw [scenario_step1 sch₁ hv₁]
  simp only
  unfold runServer
  rw [scenario_step2 sch₂ hv₂]
  simp only
  unfold runServer
  rw [scenario_step3 sch₃ hv₃]
  simp only
  unfold runServer
  rw [scenario_step4 sch₄ hv₄]
  simp only
  unfold runServer
  rfl

/-- Witness of `spec_scenario`: every map visited in stored order. -/
theorem spec_scenario_witness :
    runServer 10 (StartServer 10)
        (scenarioStream Sched.stored Sched.stored Sched.stored Sched.stored) =
      .ok { request := [], result := [], configs := scenarioConfigs } ∧
    scenarioConfigs.length = 5 ∧
    scenarioConfigs.map (fun c => owned c.Shards 100) = [0, 10, 5, 0, 0] ∧
    scenarioConfigs.map (fun c => owned c.Shards 101) = [0, 0, 5, 10, 10] ∧
    scenarioConfigs.map (fun c => c.Num) = [0, 1, 2, 3, 4] ∧
    Query { request := [], result := [], configs := scenarioConfigs } 0 true
        ⟨false, "", initialConfig 0⟩ =
      .ok { (⟨false, "", initialConfig 0⟩ : QueryReply) with
            Config := { Num := 0, Shards := List.replicate 10 0, Groups := [] }
            WrongLeader := false } :=
  spec_scenario Sched.stored Sched.stored Sched.stored Sched.stored ⟨false, "", initialConfig 0⟩
    stored_valid stored_valid stored_valid stored_valid

/-! ## The lower half of the balance bound -/

theorem idxWhere_length (p : Int → Bool) (off : Nat) (l : List Int) :
    (idxWhere p off l).length = l.countP p := by
  induction l generalizing off with
  | nil => rfl
  | cons a rest ih =>
    rw [idxWhere_cons]
    by_cases hp : p a = true
    · rw [if_pos hp, List.length_cons, ih, List.countP_cons_of_pos _ _ hp]
    · rw [if_neg hp, ih, List.countP_cons_of_neg _ _ hp]

theorem ownedIdx_length (shards : List Int) (g : Int) :
    (ownedIdx shards g).length = owned shards g := by
  unfold ownedIdx owned List.count
  rw [idxWhere_length]
  apply List.countP_congr
  intro o _
  simp

theorem fillCandidates_cons_none (g2s : GoMap Int (List Nat)) (expected : Nat) (g : Int)
    (gs : List Int) (rest r₁ : List Nat) (shards s₁ : List Int)
    (h : g2s.get? g = none) (hok : assign g expected rest shards = .ok (s₁, r₁)) :
    fillCandidates g2s expected (g :: gs) rest shards = fillCandidates g2s expected gs r₁ s₁ := by
  rw [fillCandidates]
  simp only [h, hok]

theorem fillCandidates_cons_some (g2s : GoMap Int (List Nat)) (expected : Nat) (g : Int)
    (gs : List Int) (rest r₁ : List Nat) (shards s₁ : List Int) (sids : List Nat)
    (h : g2s.get? g = some sids) (hlt : sids.length < expected)
    (hok : assign g (expected - sids.length) rest shards = .ok (s₁, r₁)) :
    fillCandidates g2s expected (g :: gs) rest shards = fillCandidates g2s expected gs r₁ s₁ := by
  rw [fillCandidates]
  simp only [h, hlt, if_true, hok]

/-- The loop over `candidateGids` when the entries left of `neededMove` cover what the
candidates lack (`ν g` for the candidate `g`): every candidate `g` receives `ν g` shards
of its own. -/
theorem fillCandidates_blocks (g2s : GoMap Int (List Nat)) (expected : Nat) (ν : Int → Nat)
    (cands : List Int) (rest : List Nat) (shards : List Int)
    (hν : ∀ g ∈ cands, (g2s.get? g = none ∧ ν g = expected) ∨
      ∃ sids, g2s.get? g = some sids ∧ sids.length < expected ∧ ν g = expected - sids.length)
    (hr : ∀ sid ∈ rest, sid < shards.length) (hnd : rest.Nodup)
    (hsup : (cands.map ν).sum ≤ rest.length) :
    ∃ shards' consumed rest', fillCandidates g2s expected cands rest shards = .ok (shards', rest') ∧
      rest = consumed ++ rest' ∧ shards'.length = shards.length ∧
      (∀ i, i ∉ consumed → shards'[i]? = shards[i]?) ∧
      ∀ g ∈ cands, ∃ B : List Nat, B.Nodup ∧ B.length = ν g ∧
        ∀ i ∈ B, i ∈ consumed ∧ shards'[i]? = some g := by
  induction cands generalizing rest shards with
  | nil =>
    refine ⟨shards, [], rest, ?_, rfl, rfl, fun _ _ => rfl, ?_⟩
    · unfold fillCandidates
      rfl
    · intro g hg
      simp at hg
  | cons g gs ih =>
    rw [List.map_cons, List.sum_cons] at hsup
    have hn : ν g ≤ rest.length := by omega
    obtain ⟨s₁, hok₁, hlen₁, hout₁, hin₁⟩ := assign_spec g (ν g) rest shards hr
    have hstep : fillCandidates g2s expected (g :: gs) rest shards =
        fillCandidates g2s expected gs (rest.drop (ν g)) s₁ := by
      rcases hν g (List.mem_cons_self _ _) with ⟨hnone, hνg⟩ | ⟨sids, hsome, hlt, hνg⟩
      · exact fillCandidates_cons_none g2s expected g gs rest _ shards s₁ hnone (hνg ▸ hok₁)
      · exact fillCandidates_cons_some g2s expected g gs rest _ shards s₁ sids hsome hlt
          (hνg ▸ hok₁)
    have hr₁ : ∀ sid ∈ rest.drop (ν g), sid < s₁.length := by
      intro sid hs
      rw [hlen₁]
      exact hr sid (List.mem_of_mem_drop hs)
    have hnd₁ : (rest.drop (ν g)).Nodup := hnd.sublist (List.drop_sublist _ _)
    have hsup₁ : (gs.map ν).sum ≤ (rest.drop (ν g)).length := by
      rw [List.length_drop]
      omega
    obtain ⟨s₂, c₂, r₂, hok₂, hsplit, hlen₂, hout₂, hblk⟩ :=
      ih (rest.drop (ν g)) s₁ (fun g' hg' => hν g' (List.mem_cons_of_mem _ hg')) hr₁ hnd₁ hsup₁
    have hc₂ : ∀ i ∈ c₂, i ∈ rest.drop (ν g) := by
      intro i hi
      rw [hsplit]
      exact List.mem_append_left _ hi
    refine ⟨s₂, rest.take (ν g) ++ c₂, r₂, ?_, ?_, ?_, ?_, ?_⟩
    · rw [hstep]
      exact hok₂
    · rw [List.append_assoc, ← hsplit, List.take_append_drop]
    · rw [hlen₂, hlen₁]
    · intro i hi
      rw [List.mem_append, not_or] at hi
      rw [hout₂ i hi.2, hout₁ i hi.1]
    · intro g' hg'
      by_cases hgg : g' = g
      · subst hgg
        refine ⟨rest.take (ν g'), hnd.sublist (List.take_sublist _ _), ?_, ?_⟩
        · rw [List.length_take]
          omega
        · intro i hi
          have hnot : i ∉ c₂ := fun h =>
            List.disjoint_take_drop hnd (Nat.le_refl _) hi (hc₂ i h)
          exact ⟨List.mem_append_left _ hi, by rw [hout₂ i hnot, hin₁ i hi]⟩
      · have hmem : g' ∈ gs := by
          rcases List.mem_cons.mp hg' with h | h
          · exact absurd h hgg
          · exact h
        obtain ⟨B, hBnd, hBlen, hB⟩ := hblk g' hmem
        exact ⟨B, hBnd, hBlen, fun i hi => ⟨List.mem_append_right _ (hB i hi).1, (hB i hi).2⟩⟩

theorem sum_map_add_nat {α : Type} (l : List α) (f g : α → Nat) :
    (l.map (fun x => f x + g x)).sum = (l.map f).sum + (l.map g).sum := by
  induction l with
  | nil => rfl
  | cons a rest ih =>
    simp only [List.map_cons, List.sum_cons, ih]
    omega

theorem sum_map_const_nat {α : Type} (l : List α) (c : Nat) :
    (l.map (fun _ => c)).sum = l.length * c := by
  induction l with
  | nil => simp
  | cons a rest ih =>
    simp only [List.map_cons, List.sum_cons, ih, List.length_cons]
    rw [Nat.add_mul, Nat.one_mul, Nat.add_comm]

theorem sum_filter_le_nat {α : Type} (l : List α) (p : α → Bool) (f : α → Nat) :
    ((l.filter p).map f).sum ≤ (l.map f).sum := by
  induction l with
  | nil => simp
  | cons a rest ih =>
    rw [List.filter_cons]
    split
    · simp only [List.map_cons, List.sum_cons]
      omega
    · simp only [List.map_cons, List.sum_cons]
      omega

/-- Every shard is in `neededMove` or among the first `expected` shards of a key of
`Groups`. -/
theorem shards_covered (sch : Sched) (hv : sch.Valid) (config : Config) :
    config.Shards.length ≤ (neededMoveOf sch config).length +
      (config.Groups.keys.map
        (fun g => min (expectedOf config) (ownedIdx config.Shards g).length)).sum := by
  have hsub : Finset.range config.Shards.length ⊆
      (neededMoveOf sch config).toFinset ∪
        config.Groups.keys.toFinset.biUnion
          (fun g => ((ownedIdx config.Shards g).take (expectedOf config)).toFinset) := by
    intro i hi
    have hlt : i < config.Shards.length := Finset.mem_range.mp hi
    have hget : config.Shards[i]? = some config.Shards[i] := List.getElem?_eq_getElem hlt
    rw [Finset.mem_union, List.mem_toFinset, Finset.mem_biUnion]
    by_cases hc : config.Groups.contains config.Shards[i] = true
    · have hown : i ∈ ownedIdx config.Shards config.Shards[i] := (mem_ownedIdx _ _ _).mpr hget
      rw [← List.take_append_drop (expectedOf config) (ownedIdx config.Shards config.Shards[i]),
        List.mem_append] at hown
      rcases hown with h | h
      · right
        exact ⟨_, List.mem_toFinset.mpr ((contains_iff_mem_keys _ _).mp hc),
          List.mem_toFinset.mpr h⟩
      · left
        exact (mem_neededMoveOf sch hv config i).mpr (Or.inr ⟨_, hc, h⟩)
    · left
      exact (mem_neededMoveOf sch hv config i).mpr (Or.inl ⟨_, hget, by simpa using hc⟩)
  have h1 := Finset.card_le_card hsub
  rw [Finset.card_range] at h1
  have h2 := Finset.card_union_le (neededMoveOf sch config).toFinset
    (config.Groups.keys.toFinset.biUnion
      (fun g => ((ownedIdx config.Shards g).take (expectedOf config)).toFinset))
  have h3 := List.toFinset_card_le (neededMoveOf sch config)
  have h4 : (config.Groups.keys.toFinset.biUnion
      (fun g => ((ownedIdx config.Shards g).take (expectedOf config)).toFinset)).card ≤
      (config.Groups.keys.map
        (fun g => min (expectedOf config) (ownedIdx config.Shards g).length)).sum := by
    rw [← List.sum_toFinset _ (GoMap.keys_nodup _)]
    refine le_trans Finset.card_biUnion_le (Finset.sum_le_sum ?_)
    intro g _
    refine le_trans (List.toFinset_card_le _) ?_
    rw [List.length_take]
  omega

/-- When `N * expected ≤ S`, the shards of `neededMove` cover what the keys of `Groups`
lack to reach `expected` shards each. -/
theorem supply_covers_demand (sch : Sched) (hv : sch.Valid) (config : Config)
    (hN : config.Groups.keys.length * expectedOf config ≤ config.Shards.length) :
    (config.Groups.keys.map
      (fun g => expectedOf config - (ownedIdx config.Shards g).length)).sum ≤
      (neededMoveOf sch config).length := by
  have hcov := shards_covered sch hv config
  have hsum : (config.Groups.keys.map
      (fun g => (expectedOf config - (ownedIdx config.Shards g).length) +
        min (expectedOf config) (ownedIdx config.Shards g).length)).sum =
      config.Groups.keys.length * expectedOf config := by
    rw [← sum_map_const_nat]
    congr 1
    apply List.map_congr_left
    intro g _
    omega
  rw [sum_map_add_nat] at hsum
  omega

theorem length_le_of_nodup_subset (K L : List Nat) (hnd : K.Nodup) (hsub : ∀ i ∈ K, i ∈ L) :
    K.length ≤ L.length := by
  have h : K.toFinset ⊆ L.toFinset := by
    intro i hi
    exact List.mem_toFinset.mpr (hsub i (List.mem_toFinset.mp hi))
  have h1 := Finset.card_le_card h
  rw [List.toFinset_card_of_nodup hnd] at h1
  exact le_trans h1 (List.toFinset_card_le L)

/-- When `N * expected ≤ S`, every key of `Groups` owns at least `expected` shards after
`updateConfig`. -/
theorem updateConfig_fills (sch : Sched) (hv : sch.Valid) (sm : ShardMaster)
    (config : Config) (hne : config.Groups.keys ≠ [])
    (hN : config.Groups.keys.length * expectedOf config ≤ config.Shards.length) :
    ∃ shards', updateConfig sch sm config =
        .ok { sm with configs := sm.configs ++ [{ config with Shards := shards' }] } ∧
      ∀ g ∈ config.Groups.keys, expectedOf config ≤ owned shards' g := by
  have hsupply := supply_covers_demand sch hv config hN
  have hν : ∀ g ∈ candidatesOf sch config,
      ((g2sOf config).get? g = none ∧
        expectedOf config - (ownedIdx config.Shards g).length = expectedOf config) ∨
      ∃ sids, (g2sOf config).get? g = some sids ∧ sids.length < expectedOf config ∧
        expectedOf config - (ownedIdx config.Shards g).length =
          expectedOf config - sids.length := by
    intro g hg
    obtain ⟨hk, hlt⟩ := (mem_candidatesOf sch hv config g).mp hg
    rw [g2sOf_get?]
    by_cases hnil : ownedIdx config.Shards g = []
    · left
      rw [if_neg (fun h => h.2 hnil), hnil]
      exact ⟨rfl, rfl⟩
    · right
      rw [if_pos ⟨(contains_iff_mem_keys _ _).mpr hk, hnil⟩]
      exact ⟨_, rfl, hlt, rfl⟩
  have hsup : ((candidatesOf sch config).map
      (fun g => expectedOf config - (ownedIdx config.Shards g).length)).sum ≤
      (neededMoveOf sch config).length := by
    refine le_trans ?_ hsupply
    unfold candidatesOf candidates
    refine le_trans (sum_filter_le_nat _ _ _) ?_
    exact le_of_eq ((hv.2.2.1 config.Groups.keys).map _).sum_eq
  obtain ⟨s₁, c, r, hok₁, hsplit, hlen₁, hout₁, hblk⟩ :=
    fillCandidates_blocks (g2sOf config) (expectedOf config)
      (fun g => expectedOf config - (ownedIdx config.Shards g).length)
      (candidatesOf sch config) (neededMoveOf sch config) config.Shards hν
      (neededMoveOf_lt sch hv config) (neededMoveOf_nodup sch hv config) hsup
  have hr : ∀ sid ∈ r, sid < s₁.length := by
    intro sid hs
    rw [hlen₁]
    exact neededMoveOf_lt sch hv config sid (by rw [hsplit]; exact List.mem_append_right _ hs)
  obtain ⟨s₂, hok₂, _, _, hout₂, _⟩ :=
    roundRobin_spec (candidatesOf sch config) 0 r s₁ (Nat.zero_le _) hr
  have hnd := neededMoveOf_nodup sch hv config
  rw [hsplit] at hnd
  have hdisj : ∀ i, i ∈ c → i ∉ r := fun i hc hr' => (List.nodup_append.mp hnd).2.2 hc hr'
  refine ⟨s₂, ?_, ?_⟩
  · rw [updateConfig_unfold sch hv sm config hne, hok₁]
    simp only [hok₂]
  · intro g hg
    rw [← ownedIdx_length]
    have hkept : ∀ i ∈ (ownedIdx config.Shards g).take (expectedOf config),
        i ∈ ownedIdx s₂ g := by
      intro i hi
      have hnot := kept_not_needed sch hv config g hg i hi
      rw [hsplit, List.mem_append, not_or] at hnot
      rw [mem_ownedIdx, hout₂ i hnot.2, hout₁ i hnot.1]
      exact (mem_ownedIdx _ _ _).mp (List.mem_of_mem_take hi)
    have hkept_nd : ((ownedIdx config.Shards g).take (expectedOf config)).Nodup :=
      (ownedIdx_nodup _ _).sublist (List.take_sublist _ _)
    by_cases hcand : g ∈ candidatesOf sch config
    · obtain ⟨B, hBnd, hBlen, hB⟩ := hblk g hcand
      have hlt := ((mem_candidatesOf sch hv config g).mp hcand).2
      have hK : ((ownedIdx config.Shards g).take (expectedOf config) ++ B).Nodup := by
        apply List.Nodup.append hkept_nd hBnd
        intro i hi hiB
        apply kept_not_needed sch hv config g hg i hi
        rw [hsplit]
        exact List.mem_append_left _ (hB i hiB).1
      have hsub : ∀ i ∈ (ownedIdx config.Shards g).take (expectedOf config) ++ B,
          i ∈ ownedIdx s₂ g := by
        intro i hi
        rcases List.mem_append.mp hi with h | h
        · exact hkept i h
        · rw [mem_ownedIdx, hout₂ i (hdisj i (hB i h).1)]
          exact (hB i h).2
      have hle := length_le_of_nodup_subset _ _ hK hsub
      rw [List.length_append, List.length_take, hBlen] at hle
      omega
    · have hge : ¬ (ownedIdx config.Shards g).length < expectedOf config := fun hlt =>
        hcand ((mem_candidatesOf sch hv config g).mpr ⟨hg, hlt⟩)
      have hle := length_le_of_nodup_subset _ _ hkept_nd hkept
      rw [List.length_take] at hle
      omega

/-- C19.  For a configuration with `N ≥ 1` groups and `S` shards, whatever the previous
owners, `updateConfig` completes under a valid schedule and every member group owns at
least `S / N` shards in the `Shards` it appends; the shards of `neededMove` are at least
as many as the member groups lack to reach `S / N` each. -/
theorem lower_balance_bound (sch : Sched) (sm : ShardMaster) (config : Config)
    (hv : sch.Valid) (hne : config.Groups.keys ≠ []) :
    (∃ shards', updateConfig sch sm config =
        .ok { sm with configs := sm.configs ++ [{ config with Shards := shards' }] } ∧
      ∀ g ∈ config.Groups.keys,
        config.Shards.length / config.Groups.keys.length ≤ owned shards' g) ∧
    (config.Groups.keys.map
      (fun g => config.Shards.length / config.Groups.keys.length -
        (ownedIdx config.Shards g).length)).sum ≤ (neededMoveOf sch config).length := by
  by_cases hz : config.Shards.length / config.Groups.keys.length = 0
  · rw [hz]
    constructor
    · obtain ⟨shards', hok, _⟩ := updateConfig_spec sch hv sm config hne
      exact ⟨shards', hok, fun g _ => Nat.zero_le _⟩
    · simp
  · have hexp : expectedOf config = config.Shards.length / config.Groups.keys.length := by
      unfold expectedOf expectedLoad
      rw [if_neg hz]
    have hN : config.Groups.keys.length * expectedOf config ≤ config.Shards.length := by
      rw [hexp]
      exact Nat.mul_div_le _ _
    rw [← hexp]
    exact ⟨updateConfig_fills sch hv sm config hne hN, supply_covers_demand sch hv config hN⟩

/-- Witness of `lower_balance_bound`: groups 1, 2, 3, 4 and the 10 shards left by the
joins of 1, 2, 3, where `S / N = 2`. -/
theorem lower_balance_bound_witness :
    (∃ shards', updateConfig Sched.stored (StartServer 10)
        { Num := 4, Shards := [1, 1, 1, 3, 3, 2, 2, 2, 3, 3],
          Groups := [(1, ["a"]), (2, ["b"]), (3, ["c"]), (4, ["d"])] } =
        .ok { StartServer 10 with configs := (StartServer 10).configs ++
          [{ Num := 4, Shards := shards',
             Groups := [(1, ["a"]), (2, ["b"]), (3, ["c"]), (4, ["d"])] }] } ∧
      ∀ g ∈ GoMap.keys [((1 : Int), ["a"]), (2, ["b"]), (3, ["c"]), (4, ["d"])],
        ([1, 1, 1, 3, 3, 2, 2, 2, 3, 3] : List Int).length /
          (GoMap.keys [((1 : Int), ["a"]), (2, ["b"]), (3, ["c"]), (4, ["d"])]).length ≤
          owned shards' g) ∧
    ((GoMap.keys [((1 : Int), ["a"]), (2, ["b"]), (3, ["c"]), (4, ["d"])]).map
      (fun g => ([1, 1, 1, 3, 3, 2, 2, 2, 3, 3] : List Int).length /
          (GoMap.keys [((1 : Int), ["a"]), (2, ["b"]), (3, ["c"]), (4, ["d"])]).length -
        (ownedIdx [1, 1, 1, 3, 3, 2, 2, 2, 3, 3] g).length)).sum ≤
      (neededMoveOf Sched.stored
        { Num := 4, Shards := [1, 1, 1, 3, 3, 2, 2, 2, 3, 3],
          Groups := [(1, ["a"]), (2, ["b"]), (3, ["c"]), (4, ["d"])] }).length :=
  lower_balance_bound Sched.stored (StartServer 10)
    { Num := 4, Shards := [1, 1, 1, 3, 3, 2, 2, 2, 3, 3],
      Groups := [(1, ["a"]), (2, ["b"]), (3, ["c"]), (4, ["d"])] }
    stored_valid (by decide)

end Shardmaster
